import Mathlib

/-!
# Verification of the `arcache` caching library

Shallow embedding of the seven cache engines of the `arcache` Rust crate
(FIFO, LIFO, LRU, MRU, LFU, random replacement, TTL) and proofs about the
claims of its specification.

Modelling conventions:
* `std::collections::HashMap<K, V>` is modelled as an association list
  `List (K × V)` whose operations act on the first occurrence of a key.
  The engines never observe a hash map's iteration order, so any
  deterministic representation is adequate; keys stay duplicate-free by
  construction.
* `linked_hash_map::LinkedHashMap` is the same list kept in access order:
  the head is the oldest (front) entry, `insert` and `get_refresh` move an
  existing entry to the back, `pop_front`/`pop_back` act on head/last.
* `linked_hash_set::LinkedHashSet<K>` is a `List K` in insertion order.
* `std::time::Instant`/`Duration` are natural numbers; every TTL operation
  receives the current time `now` explicitly.
* `u64` counters are natural numbers (the code never exercises overflow).
* `Arc<V>` is just `V`: the embedding only tracks values, not sharing.
* randomness (`rand::rng().random_range(0..n)`) is an explicit `Nat`
  argument reduced modulo `n`; `random_range` on an empty range panics in
  Rust, so operations that can reach it return `Option`, with `none`
  standing for the panic.
* a `while` loop whose body can fail to make progress is modelled with
  explicit fuel returning `Option`; `none` for every fuel amount means the
  loop never terminates.
-/

set_option maxRecDepth 4000

namespace Arcache

section AssocList

variable {K V : Type} [DecidableEq K]

/-- `HashMap::get` / `LinkedHashMap::get`: value at the first occurrence of
the key, if any. -/
def alookup (k : K) : List (K × V) → Option V
  | [] => none
  | (k', v) :: t => if k' = k then some v else alookup k t

/-- `HashMap::insert`: replace the value at the first occurrence of the key
in place, or append a fresh entry. -/
def ainsert (k : K) (v : V) : List (K × V) → List (K × V)
  | [] => [(k, v)]
  | (k', v') :: t => if k' = k then (k, v) :: t else (k', v') :: ainsert k v t

/-- `HashMap::remove`: drop the first occurrence of the key. -/
def aerase (k : K) : List (K × V) → List (K × V)
  | [] => []
  | (k', v') :: t => if k' = k then t else (k', v') :: aerase k t

/-- The keys of an association list, in order. -/
def akeys (m : List (K × V)) : List K := m.map Prod.fst

/-- Erase the first occurrence of an element from a plain list
(`Vec::remove(position(..))`, `LinkedHashSet::remove`). -/
def lerase (k : K) : List K → List K
  | [] => []
  | k' :: t => if k' = k then t else k' :: lerase k t

/-- `LinkedHashMap::insert`: overwrite (moving the entry to the back,
matching the crate's "update LRU position" behaviour) or append at the
back; returns the previous value. -/
def lhmInsert (k : K) (v : V) (m : List (K × V)) : Option V × List (K × V) :=
  (alookup k m, aerase k m ++ [(k, v)])

/-- `LinkedHashMap::get_refresh`: on a hit, move the entry to the back. -/
def lhmGetRefresh (k : K) (m : List (K × V)) : Option V × List (K × V) :=
  match alookup k m with
  | none => (none, m)
  | some v => (some v, aerase k m ++ [(k, v)])

/-- `LinkedHashMap::pop_front` / `VecDeque::pop_front`. -/
def popFront : List K → Option K × List K
  | [] => (none, [])
  | k :: t => (some k, t)

/-- `LinkedHashSet::insert`: append at the back, moving an existing
element there. -/
def lhsInsert (k : K) (s : List K) : List K := lerase k s ++ [k]

end AssocList

/-- The statistics snapshot (`CacheStats`). -/
structure CacheStats where
  hits : Nat
  misses : Nat
  size : Nat
  capacity : Nat
  deriving DecidableEq, Repr

namespace FIFO

variable {K V : Type} [DecidableEq K]

/-- `FIFOCacheInner`: the state of a FIFO cache. -/
structure State (K V : Type) where
  capacity : Nat
  key_value_map : List (K × V)
  fifo : List K
  hits : Nat
  misses : Nat
  deriving DecidableEq, Repr

/-- `FIFOCache::new`. -/
def new (capacity : Nat) : State K V :=
  { capacity := capacity, key_value_map := [], fifo := [], hits := 0, misses := 0 }

/-- `FIFOCache::get`. -/
def get (k : K) (s : State K V) : Option V × State K V :=
  let result := alookup k s.key_value_map
  if result.isSome then
    (result, { s with hits := s.hits + 1 })
  else
    (result, { s with misses := s.misses + 1 })

/-- `FIFOCache::set`: when `len ≥ capacity` pop the front of the queue and
evict that key (even if the key being set is already present), then insert
and push the key at the back. -/
def set (k : K) (v : V) (s : State K V) : Option V × State K V :=
  let s1 :=
    if s.key_value_map.length ≥ s.capacity then
      match popFront s.fifo with
      | (some oldest, rest) =>
          { s with key_value_map := aerase oldest s.key_value_map, fifo := rest }
      | (none, _) => s
    else s
  let result := alookup k s1.key_value_map
  (result, { s1 with key_value_map := ainsert k v s1.key_value_map,
                     fifo := s1.fifo ++ [k] })

/-- `FIFOCache::remove`: drop the key from the map and its first
occurrence from the queue. -/
def remove (k : K) (s : State K V) : Option V × State K V :=
  let result := alookup k s.key_value_map
  (result, { s with key_value_map := aerase k s.key_value_map,
                    fifo := lerase k s.fifo })

/-- `FIFOCache::clear`. -/
def clear (s : State K V) : State K V :=
  { s with key_value_map := [], fifo := [] }

/-- `FIFOCache::stats`. -/
def stats (s : State K V) : CacheStats :=
  { hits := s.hits, misses := s.misses, size := s.key_value_map.length,
    capacity := s.capacity }

/-- The eviction loop of `FIFOCache::change_capacity`: while the map is
over capacity, pop the front of the queue and evict it.  When the queue is
empty but the map is still over capacity the Rust loop spins forever;
that case is `none`. -/
def shrink (cap : Nat) : List K → List (K × V) → Option (List K × List (K × V))
  | fifo, m =>
    if m.length ≤ cap then some (fifo, m)
    else
      match fifo with
      | [] => none
      | oldest :: rest => shrink cap rest (aerase oldest m)

/-- `FIFOCache::change_capacity` (the capacity reservation calls have no
observable effect). -/
def changeCapacity (cap : Nat) (s : State K V) : Option (State K V) :=
  match shrink cap s.fifo s.key_value_map with
  | none => none
  | some (fifo, m) =>
      some { s with capacity := cap, fifo := fifo, key_value_map := m }

end FIFO

namespace LIFO

variable {K V : Type} [DecidableEq K]

/-- `LIFOCacheInner`: the state of a LIFO cache; `lifo` is the insertion
stack (`Vec<K>`, pushed and popped at the back). -/
structure State (K V : Type) where
  capacity : Nat
  key_value_map : List (K × V)
  lifo : List K
  hits : Nat
  misses : Nat
  deriving DecidableEq, Repr

/-- `LIFOCache::new`. -/
def new (capacity : Nat) : State K V :=
  { capacity := capacity, key_value_map := [], lifo := [], hits := 0, misses := 0 }

/-- `LIFOCache::get`. -/
def get (k : K) (s : State K V) : Option V × State K V :=
  let result := alookup k s.key_value_map
  if result.isSome then
    (result, { s with hits := s.hits + 1 })
  else
    (result, { s with misses := s.misses + 1 })

/-- `LIFOCache::set`: when `len ≥ capacity` pop the top of the stack and
evict that key, then insert and push the key. -/
def set (k : K) (v : V) (s : State K V) : Option V × State K V :=
  let s1 :=
    if s.key_value_map.length ≥ s.capacity then
      match s.lifo.getLast? with
      | some newest =>
          { s with key_value_map := aerase newest s.key_value_map,
                   lifo := s.lifo.dropLast }
      | none => s
    else s
  let result := alookup k s1.key_value_map
  (result, { s1 with key_value_map := ainsert k v s1.key_value_map,
                     lifo := s1.lifo ++ [k] })

/-- `LIFOCache::remove`. -/
def remove (k : K) (s : State K V) : Option V × State K V :=
  let result := alookup k s.key_value_map
  (result, { s with key_value_map := aerase k s.key_value_map,
                    lifo := lerase k s.lifo })

/-- `LIFOCache::clear`. -/
def clear (s : State K V) : State K V :=
  { s with key_value_map := [], lifo := [] }

/-- `LIFOCache::stats`. -/
def stats (s : State K V) : CacheStats :=
  { hits := s.hits, misses := s.misses, size := s.key_value_map.length,
    capacity := s.capacity }

/-- The eviction loop of `LIFOCache::change_capacity`; `none` when the
Rust loop would spin forever (empty stack, map still over capacity). -/
def shrink (cap : Nat) (lifo : List K) (m : List (K × V)) :
    Option (List K × List (K × V)) :=
  if m.length ≤ cap then some (lifo, m)
  else
    match h : lifo.getLast? with
    | none => none
    | some newest => shrink cap lifo.dropLast (aerase newest m)
  termination_by lifo.length
  decreasing_by
    cases lifo with
    | nil => simp at h
    | cons a t => simp [List.length_dropLast]

/-- `LIFOCache::change_capacity`. -/
def changeCapacity (cap : Nat) (s : State K V) : Option (State K V) :=
  match shrink cap s.lifo s.key_value_map with
  | none => none
  | some (lifo, m) =>
      some { s with capacity := cap, lifo := lifo, key_value_map := m }

end LIFO

namespace LRU

variable {K V : Type} [DecidableEq K]

/-- `LRUCacheInner`: the state of an LRU cache.  The `LinkedHashMap` is an
association list in access order, head oldest. -/
structure State (K V : Type) where
  capacity : Nat
  key_value_map : List (K × V)
  hits : Nat
  misses : Nat
  deriving DecidableEq, Repr

/-- `LRUCache::new`. -/
def new (capacity : Nat) : State K V :=
  { capacity := capacity, key_value_map := [], hits := 0, misses := 0 }

/-- `LRUCache::get` (`get_refresh`). -/
def get (k : K) (s : State K V) : Option V × State K V :=
  let (result, m) := lhmGetRefresh k s.key_value_map
  if result.isSome then
    (result, { s with key_value_map := m, hits := s.hits + 1 })
  else
    (result, { s with key_value_map := m, misses := s.misses + 1 })

/-- `LRUCache::set`: insert first, then pop the front (least recent) if
over capacity. -/
def set (k : K) (v : V) (s : State K V) : Option V × State K V :=
  let (result, m) := lhmInsert k v s.key_value_map
  let m2 := if m.length > s.capacity then m.tail else m
  (result, { s with key_value_map := m2 })

/-- `LRUCache::remove`. -/
def remove (k : K) (s : State K V) : Option V × State K V :=
  (alookup k s.key_value_map, { s with key_value_map := aerase k s.key_value_map })

/-- `LRUCache::clear`. -/
def clear (s : State K V) : State K V :=
  { s with key_value_map := [] }

/-- `LRUCache::stats`. -/
def stats (s : State K V) : CacheStats :=
  { hits := s.hits, misses := s.misses, size := s.key_value_map.length,
    capacity := s.capacity }

/-- The eviction loop of `LRUCache::change_capacity`: pop the front until
the size fits (`pop_front` on the map itself, so it always terminates). -/
def shrink (cap : Nat) (m : List (K × V)) : List (K × V) :=
  if m.length ≤ cap then m
  else
    match m with
    | [] => []
    | _ :: t => shrink cap t

/-- `LRUCache::change_capacity`. -/
def changeCapacity (cap : Nat) (s : State K V) : State K V :=
  { s with capacity := cap, key_value_map := shrink cap s.key_value_map }

end LRU

namespace MRU

variable {K V : Type} [DecidableEq K]

/-- `MRUCacheInner`: the state of an MRU cache (same structure as LRU). -/
structure State (K V : Type) where
  capacity : Nat
  key_value_map : List (K × V)
  hits : Nat
  misses : Nat
  deriving DecidableEq, Repr

/-- `MRUCache::new`. -/
def new (capacity : Nat) : State K V :=
  { capacity := capacity, key_value_map := [], hits := 0, misses := 0 }

/-- `MRUCache::get` (`get_refresh`). -/
def get (k : K) (s : State K V) : Option V × State K V :=
  let (result, m) := lhmGetRefresh k s.key_value_map
  if result.isSome then
    (result, { s with key_value_map := m, hits := s.hits + 1 })
  else
    (result, { s with key_value_map := m, misses := s.misses + 1 })

/-- `MRUCache::set`: pop the back (most recent) when `len + 1 > capacity`
— even if the key is already present — then insert. -/
def set (k : K) (v : V) (s : State K V) : Option V × State K V :=
  let m1 :=
    if s.key_value_map.length + 1 > s.capacity then s.key_value_map.dropLast
    else s.key_value_map
  let (result, m2) := lhmInsert k v m1
  (result, { s with key_value_map := m2 })

/-- `MRUCache::remove`. -/
def remove (k : K) (s : State K V) : Option V × State K V :=
  (alookup k s.key_value_map, { s with key_value_map := aerase k s.key_value_map })

/-- `MRUCache::clear`. -/
def clear (s : State K V) : State K V :=
  { s with key_value_map := [] }

/-- `MRUCache::stats`. -/
def stats (s : State K V) : CacheStats :=
  { hits := s.hits, misses := s.misses, size := s.key_value_map.length,
    capacity := s.capacity }

/-- The eviction loop of `MRUCache::change_capacity`: pop the back until
the size fits. -/
def shrink (cap : Nat) (m : List (K × V)) : List (K × V) :=
  if h : m.length ≤ cap then m
  else
    match m with
    | [] => []
    | a :: t => shrink cap ((a :: t).dropLast)
  termination_by m.length
  decreasing_by simp [List.length_dropLast]

/-- `MRUCache::change_capacity`. -/
def changeCapacity (cap : Nat) (s : State K V) : State K V :=
  { s with capacity := cap, key_value_map := shrink cap s.key_value_map }

end MRU

namespace LFU

variable {K V : Type} [DecidableEq K]

/-- `LFUCacheInner`: the state of an LFU cache.  `freq_map` maps a
frequency to its `LinkedHashSet` bucket (a `List K` in insertion order). -/
structure State (K V : Type) where
  capacity : Nat
  key_value_map : List (K × V)
  counter : List (K × Nat)
  freq_map : List (Nat × List K)
  hits : Nat
  misses : Nat
  min_freq : Nat
  deriving DecidableEq, Repr

/-- `LFUCache::new`. -/
def new (capacity : Nat) : State K V :=
  { capacity := capacity, key_value_map := [], counter := [], freq_map := [],
    hits := 0, misses := 0, min_freq := 0 }

/-- `LFUCacheInner::increase_freq`, exactly as written: the old bucket is
materialised with `entry(freq).or_default()` before the key is removed
from it, so the subsequent `freq_map.get(&freq).is_none()` test is always
false and neither the empty-bucket cleanup nor the `min_freq` bump ever
runs. -/
def increaseFreq (k : K) (s : State K V) : State K V :=
  let freq := (alookup k s.counter).getD 0
  let counter := ainsert k ((alookup k s.counter).getD 0 + 1) s.counter
  let fm1 := ainsert freq (lerase k ((alookup freq s.freq_map).getD [])) s.freq_map
  let s1 :=
    if (alookup freq fm1).isNone then
      { s with counter := counter,
               freq_map := aerase freq fm1,
               min_freq := if freq = s.min_freq then s.min_freq + 1 else s.min_freq }
    else { s with counter := counter, freq_map := fm1 }
  let fm2 := ainsert (freq + 1)
    (lhsInsert k ((alookup (freq + 1) s1.freq_map).getD [])) s1.freq_map
  { s1 with freq_map := fm2 }

/-- `LFUCacheInner::remove_least_freq`: pop the front of the bucket at
`min_freq` (a no-op when that bucket is absent or empty) and drop the
bucket when it ends up empty. -/
def removeLeastFreq (s : State K V) : State K V :=
  match alookup s.min_freq s.freq_map with
  | none => s
  | some [] =>
    let s1 := { s with freq_map := ainsert s.min_freq ([] : List K) s.freq_map }
    if ((alookup s.min_freq s1.freq_map).getD []).isEmpty then
      { s1 with freq_map := aerase s.min_freq s1.freq_map }
    else s1
  | some (key :: rest) =>
    let s1 := { s with key_value_map := aerase key s.key_value_map,
                       counter := aerase key s.counter,
                       freq_map := ainsert s.min_freq rest s.freq_map }
    if ((alookup s.min_freq s1.freq_map).getD []).isEmpty then
      { s1 with freq_map := aerase s.min_freq s1.freq_map }
    else s1

/-- `LFUCache::get`. -/
def get (k : K) (s : State K V) : Option V × State K V :=
  let result := alookup k s.key_value_map
  if result.isSome then
    (result, increaseFreq k { s with hits := s.hits + 1 })
  else
    (result, { s with misses := s.misses + 1 })

/-- `LFUCache::set`. -/
def set (k : K) (v : V) (s : State K V) : Option V × State K V :=
  let existing := alookup k s.key_value_map
  if existing.isSome then
    (existing,
      increaseFreq k { s with key_value_map := ainsert k v s.key_value_map })
  else
    let s1 := if s.key_value_map.length ≥ s.capacity then removeLeastFreq s else s
    (existing,
      { s1 with key_value_map := ainsert k v s1.key_value_map,
                counter := ainsert k ((alookup k s1.counter).getD 0 + 1) s1.counter,
                freq_map :=
                  ainsert 1 (lhsInsert k ((alookup 1 s1.freq_map).getD []))
                    s1.freq_map,
                min_freq := 1 })

/-- `LFUCache::remove`, exactly as written: the counter entry is removed
*before* the frequency is looked up, so `freq` is always the default 0 and
the key is never removed from its real bucket; when the (usually absent)
bucket 0 exists and empties, bucket 1 is removed and `min_freq` reset
to 0. -/
def remove (k : K) (s : State K V) : Option V × State K V :=
  let result := alookup k s.key_value_map
  let s1 := { s with key_value_map := aerase k s.key_value_map }
  if result.isSome then
    let counter := aerase k s1.counter
    let freq := (alookup k counter).getD 0
    match alookup freq s1.freq_map with
    | none => (result, { s1 with counter := counter })
    | some bucket =>
      let bucket1 := lerase k bucket
      let fm1 := ainsert freq bucket1 s1.freq_map
      if bucket1.isEmpty then
        (result, { s1 with counter := counter, freq_map := aerase 1 fm1,
                           min_freq := 0 })
      else
        (result, { s1 with counter := counter, freq_map := fm1 })
  else
    (result, s1)

/-- `LFUCache::clear` (`min_freq` is left untouched). -/
def clear (s : State K V) : State K V :=
  { s with key_value_map := [], counter := [], freq_map := [] }

/-- `LFUCache::stats`. -/
def stats (s : State K V) : CacheStats :=
  { hits := s.hits, misses := s.misses, size := s.key_value_map.length,
    capacity := s.capacity }

/-- The eviction loop of `LFUCache::change_capacity`, with explicit fuel:
`remove_least_freq` can fail to remove anything, in which case the Rust
`while` loop never terminates; exhausted fuel is `none`. -/
def shrink (cap : Nat) : Nat → State K V → Option (State K V)
  | 0, s => if s.key_value_map.length ≤ cap then some s else none
  | fuel + 1, s =>
      if s.key_value_map.length ≤ cap then some s
      else shrink cap fuel (removeLeastFreq s)

/-- `LFUCache::change_capacity` with explicit fuel for its eviction
loop. -/
def changeCapacity (cap : Nat) (fuel : Nat) (s : State K V) : Option (State K V) :=
  shrink cap fuel { s with capacity := cap }

end LFU

namespace RR

variable {K V : Type} [DecidableEq K]

/-- `RandomReplacementCacheInner`: the state of a random-replacement
cache; `keys` is the `Vec<K>` used for sampling. -/
structure State (K V : Type) where
  capacity : Nat
  key_value_map : List (K × V)
  keys : List K
  hits : Nat
  misses : Nat
  deriving DecidableEq, Repr

/-- `RandomReplacementCache::new`. -/
def new (capacity : Nat) : State K V :=
  { capacity := capacity, key_value_map := [], keys := [], hits := 0, misses := 0 }

/-- `Vec::swap_remove`: replace the element at `i` with the last element
and pop the last. -/
def swapRemove (l : List K) (i : Nat) : List K :=
  match l.getLast? with
  | none => l
  | some last => (l.set i last).dropLast

/-- `RandomReplacementCache::get`. -/
def get (k : K) (s : State K V) : Option V × State K V :=
  let result := alookup k s.key_value_map
  if result.isSome then
    (result, { s with hits := s.hits + 1 })
  else
    (result, { s with misses := s.misses + 1 })

/-- `RandomReplacementCache::set`; `r` is the random sample.  When the
eviction branch runs with an empty key list, `random_range(0..0)` panics:
that is the `none` result.  The key is pushed and inserted after the
eviction, and the returned previous value is the post-eviction one. -/
def set (k : K) (v : V) (r : Nat) (s : State K V) : Option (Option V × State K V) :=
  if s.key_value_map.length ≥ s.capacity then
    if s.keys.isEmpty then none
    else
      match s.keys.get? (r % s.keys.length) with
      | none => none
      | some removed =>
          let s1 := { s with keys := swapRemove s.keys (r % s.keys.length),
                             key_value_map := aerase removed s.key_value_map }
          some (alookup k s1.key_value_map,
            { s1 with keys := s1.keys ++ [k],
                      key_value_map := ainsert k v s1.key_value_map })
  else
    some (alookup k s.key_value_map,
      { s with keys := s.keys ++ [k],
               key_value_map := ainsert k v s.key_value_map })

/-- `RandomReplacementCache::remove`. -/
def remove (k : K) (s : State K V) : Option V × State K V :=
  let result := alookup k s.key_value_map
  (result, { s with key_value_map := aerase k s.key_value_map,
                    keys := lerase k s.keys })

/-- `RandomReplacementCache::clear`. -/
def clear (s : State K V) : State K V :=
  { s with key_value_map := [], keys := [] }

/-- `RandomReplacementCache::stats`. -/
def stats (s : State K V) : CacheStats :=
  { hits := s.hits, misses := s.misses, size := s.key_value_map.length,
    capacity := s.capacity }

/-- The eviction loop of `RandomReplacementCache::change_capacity`; `rs`
supplies one random sample per iteration (default 0 when exhausted), and
`none` is the panic on an empty key list. -/
def shrink (cap : Nat) (rs : List Nat) (keys : List K) (m : List (K × V)) :
    Option (List K × List (K × V)) :=
  if m.length ≤ cap then some (keys, m)
  else
    if hk : keys.isEmpty then none
    else
      match keys.get? ((rs.headD 0) % keys.length) with
      | none => none
      | some removed =>
          shrink cap rs.tail (swapRemove keys ((rs.headD 0) % keys.length))
            (aerase removed m)
  termination_by keys.length
  decreasing_by
    cases keys with
    | nil => simp at hk
    | cons a t =>
        simp only [swapRemove]
        cases h : (a :: t).getLast? with
        | none => simp at h
        | some last => simp [List.length_dropLast]

/-- `RandomReplacementCache::change_capacity`. -/
def changeCapacity (cap : Nat) (rs : List Nat) (s : State K V) :
    Option (State K V) :=
  match shrink cap rs s.keys s.key_value_map with
  | none => none
  | some (keys, m) =>
      some { s with capacity := cap, keys := keys, key_value_map := m }

end RR

namespace TTL

variable {K V : Type} [DecidableEq K]

/-- `DataWithLifetime`: a value plus its absolute expiry instant. -/
structure Entry (V : Type) where
  data : V
  expiry : Nat
  deriving DecidableEq, Repr

/-- `TTLCacheInner`: the state of a TTL cache.  The `LinkedHashMap` is an
association list in access order, head oldest; `jitter` and
`check_interval` only drive the background sweeper. -/
structure State (K V : Type) where
  ttl : Nat
  jitter : Nat
  check_interval : Nat
  capacity : Nat
  key_value_map : List (K × Entry V)
  hits : Nat
  misses : Nat
  deriving DecidableEq, Repr

/-- `TTLCache::new`. -/
def new (ttl check_interval jitter capacity : Nat) : State K V :=
  { ttl := ttl, jitter := jitter, check_interval := check_interval,
    capacity := capacity, key_value_map := [], hits := 0, misses := 0 }

/-- `TTLCache::get` at instant `now`: `get_refresh` moves a present entry
to the back; an unexpired entry gets its expiry reset to `now + ttl` and
counts a hit; an expired one counts a miss and is then removed; an absent
key counts a miss. -/
def get (k : K) (now : Nat) (s : State K V) : Option V × State K V :=
  match lhmGetRefresh k s.key_value_map with
  | (none, m) => (none, { s with key_value_map := m, misses := s.misses + 1 })
  | (some e, m) =>
      if e.expiry > now then
        let m1 := ainsert k { e with expiry := now + s.ttl } m
        (some e.data, { s with key_value_map := m1, hits := s.hits + 1 })
      else
        (none, { s with key_value_map := aerase k m, misses := s.misses + 1 })

/-- `TTLCache::enforce_capacity`: when `len ≥ capacity`, remove the entry
of the first (least recently accessed) key. -/
def enforceCapacity (s : State K V) : State K V :=
  if s.key_value_map.length ≥ s.capacity then
    match akeys s.key_value_map with
    | [] => s
    | k :: _ => { s with key_value_map := aerase k s.key_value_map }
  else s

/-- `TTLCache::set` at instant `now`: enforce capacity only for new keys,
then insert with a fresh expiry `now + ttl`. -/
def set (k : K) (v : V) (now : Nat) (s : State K V) : Option V × State K V :=
  let s1 := if (alookup k s.key_value_map).isSome then s else enforceCapacity s
  let (old, m) := lhmInsert k { data := v, expiry := now + s1.ttl } s1.key_value_map
  (old.map Entry.data, { s1 with key_value_map := m })

/-- `TTLCache::remove`. -/
def remove (k : K) (s : State K V) : Option V × State K V :=
  ((alookup k s.key_value_map).map Entry.data,
    { s with key_value_map := aerase k s.key_value_map })

/-- `TTLCache::clear`. -/
def clear (s : State K V) : State K V :=
  { s with key_value_map := [] }

/-- `TTLCache::stats`. -/
def stats (s : State K V) : CacheStats :=
  { hits := s.hits, misses := s.misses, size := s.key_value_map.length,
    capacity := s.capacity }

/-- The eviction loop of `TTLCache::change_capacity`: remove the first
key until the size fits. -/
def shrink (cap : Nat) (m : List (K × Entry V)) : List (K × Entry V) :=
  if m.length ≤ cap then m
  else
    match m with
    | [] => []
    | (k, e) :: t => shrink cap (aerase k ((k, e) :: t))
  termination_by m.length
  decreasing_by simp [aerase]

/-- `TTLCache::change_capacity`. -/
def changeCapacity (cap : Nat) (s : State K V) : State K V :=
  { s with capacity := cap, key_value_map := shrink cap s.key_value_map }

/-- One pass of the background sweeper over the access-ordered map: pop
expired entries from the front, stopping at the first non-expired one. -/
def sweepList (now : Nat) : List (K × Entry V) → List (K × Entry V)
  | [] => []
  | (k, e) :: t => if e.expiry < now then sweepList now t else (k, e) :: t

/-- The body of one wake-up of the background sweeper thread. -/
def sweep (now : Nat) (s : State K V) : State K V :=
  { s with key_value_map := sweepList now s.key_value_map }

end TTL

/-! ## A uniform operation language over the `Cache` trait

One operation type for all seven engines; `Ctx` carries the ambient
inputs an operation may consume: the current instant (TTL) and random
samples (random replacement). -/

/-- One call through the `Cache` trait. -/
inductive Op (K V : Type) where
  | get (k : K)
  | set (k : K) (v : V)
  | remove (k : K)
  | clear
  | changeCapacity (c : Nat)
  deriving DecidableEq, Repr

/-- Ambient inputs of one call: the instant it happens at and the random
samples drawn during it. -/
structure Ctx where
  now : Nat
  rand : Nat
  rands : List Nat
  deriving DecidableEq, Repr

/-- Run a list of operations through an engine's step function; `none`
as soon as a step panics or fails to terminate. -/
def runOps {K V σ : Type} (step : Ctx → Op K V → σ → Option (Option V × σ)) :
    σ → List (Ctx × Op K V) → Option σ
  | s, [] => some s
  | s, (c, op) :: t =>
    match step c op s with
    | none => none
    | some (_, s') => runOps step s' t

/-- 1 when the operation is a `get` that returned a value. -/
def hitInd {K V : Type} (op : Op K V) (r : Option V) : Nat :=
  match op with
  | Op.get _ => if r.isSome then 1 else 0
  | _ => 0

/-- 1 when the operation is a `get` that returned no value. -/
def missInd {K V : Type} (op : Op K V) (r : Option V) : Nat :=
  match op with
  | Op.get _ => if r.isNone then 1 else 0
  | _ => 0

/-- The number of `get` operations in the list that return a value
(`hits` in the specification's sense). -/
def countHits {K V σ : Type} (step : Ctx → Op K V → σ → Option (Option V × σ)) :
    σ → List (Ctx × Op K V) → Nat
  | _, [] => 0
  | s, (c, op) :: t =>
    match step c op s with
    | none => 0
    | some (r, s') => hitInd op r + countHits step s' t

/-- The number of `get` operations in the list that return no value. -/
def countMisses {K V σ : Type} (step : Ctx → Op K V → σ → Option (Option V × σ)) :
    σ → List (Ctx × Op K V) → Nat
  | _, [] => 0
  | s, (c, op) :: t =>
    match step c op s with
    | none => 0
    | some (r, s') => missInd op r + countMisses step s' t

section Steps

variable {K V : Type} [DecidableEq K]

/-- `FIFOCache` as a step function over `Op`. -/
def FIFO.step (_ : Ctx) : Op K V → FIFO.State K V → Option (Option V × FIFO.State K V)
  | Op.get k, s => some (FIFO.get k s)
  | Op.set k v, s => some (FIFO.set k v s)
  | Op.remove k, s => some (FIFO.remove k s)
  | Op.clear, s => some (none, FIFO.clear s)
  | Op.changeCapacity c, s =>
    match FIFO.changeCapacity c s with
    | none => none
    | some s' => some (none, s')

/-- `LIFOCache` as a step function over `Op`. -/
def LIFO.step (_ : Ctx) : Op K V → LIFO.State K V → Option (Option V × LIFO.State K V)
  | Op.get k, s => some (LIFO.get k s)
  | Op.set k v, s => some (LIFO.set k v s)
  | Op.remove k, s => some (LIFO.remove k s)
  | Op.clear, s => some (none, LIFO.clear s)
  | Op.changeCapacity c, s =>
    match LIFO.changeCapacity c s with
    | none => none
    | some s' => some (none, s')

/-- `LRUCache` as a step function over `Op`. -/
def LRU.step (_ : Ctx) : Op K V → LRU.State K V → Option (Option V × LRU.State K V)
  | Op.get k, s => some (LRU.get k s)
  | Op.set k v, s => some (LRU.set k v s)
  | Op.remove k, s => some (LRU.remove k s)
  | Op.clear, s => some (none, LRU.clear s)
  | Op.changeCapacity c, s => some (none, LRU.changeCapacity c s)

/-- `MRUCache` as a step function over `Op`. -/
def MRU.step (_ : Ctx) : Op K V → MRU.State K V → Option (Option V × MRU.State K V)
  | Op.get k, s => some (MRU.get k s)
  | Op.set k v, s => some (MRU.set k v s)
  | Op.remove k, s => some (MRU.remove k s)
  | Op.clear, s => some (none, MRU.clear s)
  | Op.changeCapacity c, s => some (none, MRU.changeCapacity c s)

/-- Fuel that decides termination of the LFU eviction loop: one unit per
bucket element plus two.  Every loop iteration either pops a bucket
element, or changes nothing except possibly dropping the empty minimum
bucket — after which the next iteration is a strict fixpoint, so a run
that exhausts this fuel never terminates. -/
def LFU.loopFuel (s : LFU.State K V) : Nat :=
  (s.freq_map.map (fun b => b.2.length)).sum + 2

/-- `LFUCache` as a step function over `Op`; a `change_capacity` whose
eviction loop never terminates is `none`. -/
def LFU.step (_ : Ctx) : Op K V → LFU.State K V → Option (Option V × LFU.State K V)
  | Op.get k, s => some (LFU.get k s)
  | Op.set k v, s => some (LFU.set k v s)
  | Op.remove k, s => some (LFU.remove k s)
  | Op.clear, s => some (none, LFU.clear s)
  | Op.changeCapacity c, s =>
    match LFU.changeCapacity c (LFU.loopFuel s) s with
    | none => none
    | some s' => some (none, s')

/-- `RandomReplacementCache` as a step function over `Op`; `none` is a
panic of `random_range` on an empty range. -/
def RR.step (c : Ctx) : Op K V → RR.State K V → Option (Option V × RR.State K V)
  | Op.get k, s => some (RR.get k s)
  | Op.set k v, s => RR.set k v c.rand s
  | Op.remove k, s => some (RR.remove k s)
  | Op.clear, s => some (none, RR.clear s)
  | Op.changeCapacity n, s =>
    match RR.changeCapacity n c.rands s with
    | none => none
    | some s' => some (none, s')

/-- `TTLCache` as a step function over `Op` (each call happens at
`c.now`). -/
def TTL.step (c : Ctx) : Op K V → TTL.State K V → Option (Option V × TTL.State K V)
  | Op.get k, s => some (TTL.get k c.now s)
  | Op.set k v, s => some (TTL.set k v c.now s)
  | Op.remove k, s => some (TTL.remove k s)
  | Op.clear, s => some (none, TTL.clear s)
  | Op.changeCapacity n, s => some (none, TTL.changeCapacity n s)

end Steps

/-! ## Concrete states used by the counterexamples -/

/-- LFU, capacity 1, after `set(1,1); get(1); set(2,2)`. -/
def lfuOverfull : LFU.State Nat Nat :=
  (LFU.set 2 2 (LFU.get 1 (LFU.set 1 1 (LFU.new 1)).2).2).2

/-- LFU, capacity 2, after the specification's LFU test sequence
`set(1,1); set(2,2); get(1); get(1); get(2); set(3,3)`. -/
def lfuSpecTrace : LFU.State Nat Nat :=
  (LFU.set 3 3 (LFU.get 2 (LFU.get 1 (LFU.get 1
    (LFU.set 2 2 (LFU.set 1 1 (LFU.new 2)).2).2).2).2).2).2

/-- LFU, capacity 2, after `set(1,1); get(1)`: the single key moved to
bucket 2 and bucket 1 emptied while `min_freq` stayed 1. -/
def lfuEmptyMin : LFU.State Nat Nat :=
  (LFU.get 1 (LFU.set 1 1 (LFU.new 2)).2).2

/-- LFU, capacity 2, after `set(1,1); set(2,2); get(1); get(2)`: both
keys sit in bucket 2, bucket 1 is empty, `min_freq` is 1.  Shrinking the
capacity from this state loops forever. -/
def lfuStuck : LFU.State Nat Nat :=
  (LFU.get 2 (LFU.get 1 (LFU.set 2 2 (LFU.set 1 1 (LFU.new 2)).2).2).2).2

/-- `lfuStuck` one iteration into the `change_capacity(1)` eviction loop:
the empty minimum bucket has been dropped and the state is now a strict
fixpoint of `remove_least_freq`. -/
def lfuStuck1 : LFU.State Nat Nat :=
  LFU.removeLeastFreq { lfuStuck with capacity := 1 }

/-- FIFO, capacity 2, after `set(1,1); set(1,10); remove(1)`: the map is
empty but a stale occurrence of key 1 is left in the queue. -/
def fifoStale : FIFO.State Nat Nat :=
  (FIFO.remove 1 (FIFO.set 1 10 (FIFO.set 1 1 (FIFO.new 2)).2).2).2

/-- TTL (`ttl` 5, capacity 2) after `set(1,42)` at instant 10: one entry
with expiry 15. -/
def ttlOne : TTL.State Nat Nat :=
  (TTL.set 1 42 10 (TTL.new 5 1 1 2)).2

/-! ## General association-list lemmas -/

section AssocLemmas

variable {K V : Type} [DecidableEq K]

theorem alookup_isSome_iff_mem (k : K) (m : List (K × V)) :
    (alookup k m).isSome ↔ k ∈ akeys m := by
  induction m with
  | nil => simp [alookup, akeys]
  | cons p t ih =>
    obtain ⟨k', v⟩ := p
    by_cases h : k' = k
    · subst h
      simp [alookup, akeys]
    · rw [show akeys ((k', v) :: t) = k' :: akeys t from rfl]
      simp only [alookup, if_neg h, List.mem_cons, ih]
      constructor
      · exact fun hm => Or.inr hm
      · rintro (hk | hm)
        · exact absurd hk.symm h
        · exact hm

theorem alookup_eq_none_iff_not_mem (k : K) (m : List (K × V)) :
    alookup k m = none ↔ k ∉ akeys m := by
  rw [← alookup_isSome_iff_mem]
  cases alookup k m <;> simp

theorem aerase_of_not_mem {k : K} {m : List (K × V)} (h : k ∉ akeys m) :
    aerase k m = m := by
  induction m with
  | nil => rfl
  | cons p t ih =>
    obtain ⟨k', v⟩ := p
    rw [show akeys ((k', v) :: t) = k' :: akeys t from rfl] at h
    simp only [List.mem_cons, not_or] at h
    have hne : k' ≠ k := fun e => h.1 e.symm
    simp [aerase, hne, ih h.2]

theorem alookup_ainsert_self (k : K) (v : V) (m : List (K × V)) :
    alookup k (ainsert k v m) = some v := by
  induction m with
  | nil => simp [ainsert, alookup]
  | cons p t ih =>
    obtain ⟨k', v'⟩ := p
    by_cases h : k' = k
    · simp [ainsert, alookup, h]
    · simp [ainsert, alookup, h, ih]

theorem aerase_sublist (k : K) (m : List (K × V)) : List.Sublist (aerase k m) m := by
  induction m with
  | nil => simp [aerase]
  | cons p t ih =>
    obtain ⟨k', v'⟩ := p
    by_cases h : k' = k
    · simpa [aerase, h] using List.sublist_cons_self (k', v') t
    · simpa [aerase, h] using List.Sublist.cons₂ (k', v') ih

theorem akeys_aerase_sublist (k : K) (m : List (K × V)) :
    List.Sublist (akeys (aerase k m)) (akeys m) :=
  List.Sublist.map Prod.fst (aerase_sublist k m)

theorem nodup_akeys_aerase {m : List (K × V)} (k : K)
    (h : (akeys m).Nodup) : (akeys (aerase k m)).Nodup :=
  h.sublist (akeys_aerase_sublist k m)

theorem not_mem_akeys_aerase {m : List (K × V)} {k : K}
    (h : (akeys m).Nodup) : k ∉ akeys (aerase k m) := by
  induction m with
  | nil => simp [aerase, akeys]
  | cons p t ih =>
    obtain ⟨k', v'⟩ := p
    rw [show akeys ((k', v') :: t) = k' :: akeys t from rfl] at h
    by_cases hk : k' = k
    · subst hk
      simpa [aerase] using (List.nodup_cons.mp h).1
    · have ht := (List.nodup_cons.mp h).2
      simp only [aerase, if_neg hk]
      rw [show akeys ((k', v') :: aerase k t) = k' :: akeys (aerase k t) from rfl]
      simp only [List.mem_cons, not_or]
      exact ⟨fun e => hk e.symm, ih ht⟩

theorem aerase_append_single {l : List (K × V)} {k : K} (e : V)
    (h : k ∉ akeys l) : aerase k (l ++ [(k, e)]) = l := by
  induction l with
  | nil => simp [aerase]
  | cons p t ih =>
    obtain ⟨k', v'⟩ := p
    rw [show akeys ((k', v') :: t) = k' :: akeys t from rfl] at h
    simp only [List.mem_cons, not_or] at h
    have hne : k' ≠ k := fun hh => h.1 hh.symm
    simp [aerase, hne, ih h.2]

theorem alookup_append_of_not_mem {l : List (K × V)} {k : K}
    (l₂ : List (K × V)) (h : k ∉ akeys l) :
    alookup k (l ++ l₂) = alookup k l₂ := by
  induction l with
  | nil => simp
  | cons p t ih =>
    obtain ⟨k', v'⟩ := p
    rw [show akeys ((k', v') :: t) = k' :: akeys t from rfl] at h
    simp only [List.mem_cons, not_or] at h
    have hne : k' ≠ k := fun hh => h.1 hh.symm
    simp [alookup, hne, ih h.2]

theorem akeys_append (l₁ l₂ : List (K × V)) :
    akeys (l₁ ++ l₂) = akeys l₁ ++ akeys l₂ := by
  simp [akeys]

theorem nodup_akeys_lhmInsert {m : List (K × V)} (k : K) (v : V)
    (h : (akeys m).Nodup) : (akeys (aerase k m ++ [(k, v)])).Nodup := by
  rw [akeys_append]
  refine List.Nodup.append (nodup_akeys_aerase k h) (by simp [akeys]) ?_
  intro a ha hb
  rw [show akeys [(k, v)] = [k] from rfl] at hb
  simp only [List.mem_singleton] at hb
  subst hb
  exact not_mem_akeys_aerase h ha

theorem akeys_ainsert_of_mem {m : List (K × V)} {k : K} (v : V)
    (h : k ∈ akeys m) : akeys (ainsert k v m) = akeys m := by
  induction m with
  | nil => simp [akeys] at h
  | cons p t ih =>
    obtain ⟨k', v'⟩ := p
    by_cases hk : k' = k
    · subst hk
      simp [ainsert, akeys]
    · rw [show akeys ((k', v') :: t) = k' :: akeys t from rfl] at h
      rcases List.mem_cons.mp h with h1 | h2
      · exact absurd h1.symm hk
      · simp only [ainsert, if_neg hk]
        rw [show akeys ((k', v') :: ainsert k v t) = k' :: akeys (ainsert k v t) from rfl,
          ih h2]
        rfl

theorem akeys_ainsert_of_not_mem {m : List (K × V)} {k : K} (v : V)
    (h : k ∉ akeys m) : akeys (ainsert k v m) = akeys m ++ [k] := by
  induction m with
  | nil => simp [ainsert, akeys]
  | cons p t ih =>
    obtain ⟨k', v'⟩ := p
    rw [show akeys ((k', v') :: t) = k' :: akeys t from rfl] at h
    simp only [List.mem_cons, not_or] at h
    have hne : k' ≠ k := fun hh => h.1 hh.symm
    simp only [ainsert, if_neg hne]
    rw [show akeys ((k', v') :: ainsert k v t) = k' :: akeys (ainsert k v t) from rfl,
      ih h.2]
    rfl

theorem nodup_akeys_ainsert {m : List (K × V)} (k : K) (v : V)
    (h : (akeys m).Nodup) : (akeys (ainsert k v m)).Nodup := by
  by_cases hk : k ∈ akeys m
  · rw [akeys_ainsert_of_mem v hk]
    exact h
  · rw [akeys_ainsert_of_not_mem v hk]
    refine List.Nodup.append h (by simp) ?_
    intro a ha hb
    simp only [List.mem_singleton] at hb
    subst hb
    exact hk ha

end AssocLemmas

/-! ## The claims -/

/-- C1: the capacity invariant `size ≤ capacity` does *not* hold for every
engine.  On an LFU cache of capacity 1, `set(1,1); get(1); set(2,2)` ends
with `stats().size = 2 > 1 = capacity`: the `get` left `min_freq` pointing
at an empty bucket, so the eviction before the second insertion removed
nothing.  A FIFO cache of capacity 0 likewise ends `set(1,1)` with
`size = 1 > 0`. -/
theorem c1_size_can_exceed_capacity :
    ((LFU.stats lfuOverfull).size = 2 ∧ (LFU.stats lfuOverfull).capacity = 1) ∧
    ((FIFO.stats (FIFO.set 1 1 (FIFO.new 0 : FIFO.State Nat Nat)).2).size = 1 ∧
      (FIFO.stats (FIFO.set 1 1 (FIFO.new 0 : FIFO.State Nat Nat)).2).capacity = 0) := by
  decide

/-- C2: `set` on an already-present key is *not* eviction-free for every
engine.  FIFO, capacity 1: after `set(1,1)`, the overwrite `set(1,2)`
first evicts key 1 itself and then re-inserts it, so it returns `none`
instead of the prior value.  MRU, capacity 2: after `set(1,1); set(2,2)`,
the overwrite `set(1,10)` evicts the other key 2. -/
theorem c2_set_existing_key_can_evict :
    ((FIFO.set 1 2 (FIFO.set 1 1 (FIFO.new 1 : FIFO.State Nat Nat)).2).1 = none ∧
      alookup 1 (FIFO.set 1 1 (FIFO.new 1 : FIFO.State Nat Nat)).2.key_value_map
        = some 1) ∧
    ((MRU.set 1 10 (MRU.set 2 2 (MRU.set 1 1 (MRU.new 2 : MRU.State Nat Nat)).2).2).1
        = some 1 ∧
      alookup 2 (MRU.set 2 2 (MRU.set 1 1 (MRU.new 2 : MRU.State Nat Nat)).2).2.key_value_map
        = some 2 ∧
      alookup 2 (MRU.set 1 10
          (MRU.set 2 2 (MRU.set 1 1 (MRU.new 2 : MRU.State Nat Nat)).2).2).2.key_value_map
        = none) := by
  decide

/-- C3: on the LFU sequence `set(1,1); set(2,2); get(1); get(1); get(2);
set(3,3)` with capacity 2, key 2 is *not* evicted: the final insertion's
eviction hits the empty minimum-frequency bucket and removes nothing, so
all three keys are present (`size = 3`) and `get(2)` returns 2. -/
theorem c3_lfu_spec_sequence_evicts_nothing :
    (LFU.get 2 lfuSpecTrace).1 = some 2 ∧
    (LFU.get 1 lfuSpecTrace).1 = some 1 ∧
    (LFU.get 3 lfuSpecTrace).1 = some 3 ∧
    (LFU.stats lfuSpecTrace).size = 3 := by
  decide

/-- C4: an LFU `get` hit does move the key to the next bucket and bump its
counter, but the tracked minimum is *never* incremented when the old
bucket empties: after `set(1,1); get(1)` on a capacity-2 cache, key 1 sits
in bucket 2 with counter 2, yet `min_freq` is still 1 and bucket 1 is
still present and empty — the tracked minimum refers to an empty
bucket. -/
theorem c4_lfu_min_freq_points_to_empty_bucket :
    alookup 2 lfuEmptyMin.freq_map = some [1] ∧
    alookup 1 lfuEmptyMin.counter = some 2 ∧
    lfuEmptyMin.min_freq = 1 ∧
    alookup 1 lfuEmptyMin.freq_map = some [] := by
  decide

/-- C6: operations are *not* panic-free and capacity 0 is *not* handled
as specified.  A `set` on a capacity-0 random-replacement cache executes
`random_range(0..0)`, which panics (the `none` result); and on a
capacity-0 FIFO cache the inserted entry survives — the eviction pops an
empty queue — so a subsequent `get` succeeds. -/
theorem c6_capacity_zero_panics_or_retains :
    RR.set 1 1 0 (RR.new 0 : RR.State Nat Nat) = none ∧
    (FIFO.get 1 (FIFO.set 1 1 (FIFO.new 0 : FIFO.State Nat Nat)).2).1 = some 1 := by
  decide

theorem lfu_shrink_stuck_fixpoint :
    ∀ n : Nat, LFU.shrink 1 n lfuStuck1 = none := by
  intro n
  induction n with
  | zero => decide
  | succ n ih =>
    simp only [LFU.shrink]
    rw [if_neg (by decide)]
    rw [show LFU.removeLeastFreq lfuStuck1 = lfuStuck1 from by decide]
    exact ih

/-- C5: `change_capacity` does *not* terminate on every reachable state.
From the reachable LFU state `lfuStuck` (capacity 2, two live keys, both
in bucket 2, `min_freq` stuck at the empty bucket 1), shrinking to
capacity 1 loops forever: the first iteration only drops the empty
minimum bucket and every further iteration changes nothing, so for every
amount of fuel the eviction loop fails to bring the size (2) down to the
new capacity (1). -/
theorem c5_lfu_change_capacity_diverges :
    (LFU.stats lfuStuck).size = 2 ∧
    ∀ fuel : Nat, LFU.changeCapacity 1 fuel lfuStuck = none := by
  refine ⟨by decide, ?_⟩
  intro fuel
  cases fuel with
  | zero => decide
  | succ n =>
    show LFU.shrink 1 (n + 1) { lfuStuck with capacity := 1 } = none
    simp only [LFU.shrink]
    rw [if_neg (by decide)]
    rw [show LFU.removeLeastFreq { lfuStuck with capacity := 1 } = lfuStuck1 from rfl]
    exact lfu_shrink_stuck_fixpoint n

/-- C9: for every engine and every state, `clear` empties the cache — the
size becomes 0 and `get` finds no key — while leaving the hit and miss
counters and the capacity exactly as they were. -/
theorem c9_clear_empties_and_keeps_counters (K V : Type) [DecidableEq K] :
    (∀ (s : FIFO.State K V) (k : K), (FIFO.get k (FIFO.clear s)).1 = none ∧
      FIFO.stats (FIFO.clear s)
        = { hits := s.hits, misses := s.misses, size := 0, capacity := s.capacity }) ∧
    (∀ (s : LIFO.State K V) (k : K), (LIFO.get k (LIFO.clear s)).1 = none ∧
      LIFO.stats (LIFO.clear s)
        = { hits := s.hits, misses := s.misses, size := 0, capacity := s.capacity }) ∧
    (∀ (s : LRU.State K V) (k : K), (LRU.get k (LRU.clear s)).1 = none ∧
      LRU.stats (LRU.clear s)
        = { hits := s.hits, misses := s.misses, size := 0, capacity := s.capacity }) ∧
    (∀ (s : MRU.State K V) (k : K), (MRU.get k (MRU.clear s)).1 = none ∧
      MRU.stats (MRU.clear s)
        = { hits := s.hits, misses := s.misses, size := 0, capacity := s.capacity }) ∧
    (∀ (s : LFU.State K V) (k : K), (LFU.get k (LFU.clear s)).1 = none ∧
      LFU.stats (LFU.clear s)
        = { hits := s.hits, misses := s.misses, size := 0, capacity := s.capacity }) ∧
    (∀ (s : RR.State K V) (k : K), (RR.get k (RR.clear s)).1 = none ∧
      RR.stats (RR.clear s)
        = { hits := s.hits, misses := s.misses, size := 0, capacity := s.capacity }) ∧
    (∀ (s : TTL.State K V) (k : K) (now : Nat), (TTL.get k now (TTL.clear s)).1 = none ∧
      TTL.stats (TTL.clear s)
        = { hits := s.hits, misses := s.misses, size := 0, capacity := s.capacity }) := by
  refine ⟨fun s k => ⟨?_, rfl⟩, fun s k => ⟨?_, rfl⟩, fun s k => ⟨?_, rfl⟩,
    fun s k => ⟨?_, rfl⟩, fun s k => ⟨?_, rfl⟩, fun s k => ⟨?_, rfl⟩,
    fun s k now => ⟨?_, rfl⟩⟩
  · simp [FIFO.get, FIFO.clear, alookup]
  · simp [LIFO.get, LIFO.clear, alookup]
  · simp [LRU.get, LRU.clear, lhmGetRefresh, alookup]
  · simp [MRU.get, MRU.clear, lhmGetRefresh, alookup]
  · simp [LFU.get, LFU.clear, alookup]
  · simp [RR.get, RR.clear, alookup]
  · simp [TTL.get, TTL.clear, lhmGetRefresh, alookup]

/-- Witness for C9: the theorem's FIFO and TTL parts applied to concrete
states with non-zero counters. -/
theorem c9_clear_witness :
    ((FIFO.get 1 (FIFO.clear (⟨2, [(1, 2)], [1], 3, 4⟩ : FIFO.State Nat Nat))).1 = none ∧
      FIFO.stats (FIFO.clear (⟨2, [(1, 2)], [1], 3, 4⟩ : FIFO.State Nat Nat))
        = { hits := 3, misses := 4, size := 0, capacity := 2 }) ∧
    ((TTL.get 1 9 (TTL.clear (⟨5, 1, 1, 2, [(1, ⟨7, 8⟩)], 3, 4⟩ : TTL.State Nat Nat))).1 = none ∧
      TTL.stats (TTL.clear (⟨5, 1, 1, 2, [(1, ⟨7, 8⟩)], 3, 4⟩ : TTL.State Nat Nat))
        = { hits := 3, misses := 4, size := 0, capacity := 2 }) :=
  ⟨(c9_clear_empties_and_keeps_counters Nat Nat).1 ⟨2, [(1, 2)], [1], 3, 4⟩ 1,
    (c9_clear_empties_and_keeps_counters Nat Nat).2.2.2.2.2.2
      ⟨5, 1, 1, 2, [(1, ⟨7, 8⟩)], 3, 4⟩ 1 9⟩

/-- C10 counterexample: `remove` on an absent key does not always leave
the state unchanged.  In `fifoStale` (reached by `set(1,1); set(1,10);
remove(1)` on a capacity-2 FIFO cache) key 1 is absent, yet removing it
again returns `none` while deleting the stale occurrence of 1 from the
queue, so the state changes. -/
theorem c10_fifo_remove_absent_changes_state :
    alookup 1 fifoStale.key_value_map = none ∧
    (FIFO.remove 1 fifoStale).1 = none ∧
    (FIFO.remove 1 fifoStale).2 ≠ fifoStale := by
  decide

/-- C10 (amended): for every engine, `remove` on an absent key returns
`none`, leaves the key→value map itself untouched (so no entry is added
or removed and the size is unchanged), and preserves hits, misses and
capacity; in LRU, MRU, LFU and TTL the state is entirely unchanged, while
FIFO, LIFO and random replacement may additionally drop a stale occurrence
of the key from their internal key list. -/
theorem c10_remove_absent_is_frame (K V : Type) [DecidableEq K] :
    (∀ (s : FIFO.State K V) (k : K), alookup k s.key_value_map = none →
      (FIFO.remove k s).1 = none ∧
      (FIFO.remove k s).2.key_value_map = s.key_value_map ∧
      (FIFO.remove k s).2.hits = s.hits ∧ (FIFO.remove k s).2.misses = s.misses ∧
      (FIFO.remove k s).2.capacity = s.capacity) ∧
    (∀ (s : LIFO.State K V) (k : K), alookup k s.key_value_map = none →
      (LIFO.remove k s).1 = none ∧
      (LIFO.remove k s).2.key_value_map = s.key_value_map ∧
      (LIFO.remove k s).2.hits = s.hits ∧ (LIFO.remove k s).2.misses = s.misses ∧
      (LIFO.remove k s).2.capacity = s.capacity) ∧
    (∀ (s : LRU.State K V) (k : K), alookup k s.key_value_map = none →
      LRU.remove k s = (none, s)) ∧
    (∀ (s : MRU.State K V) (k : K), alookup k s.key_value_map = none →
      MRU.remove k s = (none, s)) ∧
    (∀ (s : LFU.State K V) (k : K), alookup k s.key_value_map = none →
      LFU.remove k s = (none, s)) ∧
    (∀ (s : RR.State K V) (k : K), alookup k s.key_value_map = none →
      (RR.remove k s).1 = none ∧
      (RR.remove k s).2.key_value_map = s.key_value_map ∧
      (RR.remove k s).2.hits = s.hits ∧ (RR.remove k s).2.misses = s.misses ∧
      (RR.remove k s).2.capacity = s.capacity) ∧
    (∀ (s : TTL.State K V) (k : K), alookup k s.key_value_map = none →
      TTL.remove k s = (none, s)) := by
  refine ⟨fun s k h => ?_, fun s k h => ?_, fun s k h => ?_, fun s k h => ?_,
    fun s k h => ?_, fun s k h => ?_, fun s k h => ?_⟩
  · have hne := (alookup_eq_none_iff_not_mem k s.key_value_map).mp h
    exact ⟨h, by simp [FIFO.remove, aerase_of_not_mem hne], rfl, rfl, rfl⟩
  · have hne := (alookup_eq_none_iff_not_mem k s.key_value_map).mp h
    exact ⟨h, by simp [LIFO.remove, aerase_of_not_mem hne], rfl, rfl, rfl⟩
  · have hne := (alookup_eq_none_iff_not_mem k s.key_value_map).mp h
    simp [LRU.remove, h, aerase_of_not_mem hne]
  · have hne := (alookup_eq_none_iff_not_mem k s.key_value_map).mp h
    simp [MRU.remove, h, aerase_of_not_mem hne]
  · have hne := (alookup_eq_none_iff_not_mem k s.key_value_map).mp h
    simp [LFU.remove, h, aerase_of_not_mem hne]
  · have hne := (alookup_eq_none_iff_not_mem k s.key_value_map).mp h
    exact ⟨h, by simp [RR.remove, aerase_of_not_mem hne], rfl, rfl, rfl⟩
  · have hne := (alookup_eq_none_iff_not_mem k s.key_value_map).mp h
    simp [TTL.remove, h, aerase_of_not_mem hne]

/-- Witness for C10 (amended): the theorem applied to each freshly
constructed engine at the absent key 0. -/
theorem c10_remove_absent_is_frame_witness :
    (FIFO.remove 0 (FIFO.new 2 : FIFO.State Nat Nat)).1 = none ∧
    (LIFO.remove 0 (LIFO.new 2 : LIFO.State Nat Nat)).1 = none ∧
    LRU.remove 0 (LRU.new 2 : LRU.State Nat Nat) = (none, LRU.new 2) ∧
    MRU.remove 0 (MRU.new 2 : MRU.State Nat Nat) = (none, MRU.new 2) ∧
    LFU.remove 0 (LFU.new 2 : LFU.State Nat Nat) = (none, LFU.new 2) ∧
    (RR.remove 0 (RR.new 2 : RR.State Nat Nat)).1 = none ∧
    TTL.remove 0 (TTL.new 5 1 1 2 : TTL.State Nat Nat) = (none, TTL.new 5 1 1 2) :=
  have h := c10_remove_absent_is_frame Nat Nat
  ⟨(h.1 (FIFO.new 2) 0 rfl).1, (h.2.1 (LIFO.new 2) 0 rfl).1,
    h.2.2.1 (LRU.new 2) 0 rfl, h.2.2.2.1 (MRU.new 2) 0 rfl,
    h.2.2.2.2.1 (LFU.new 2) 0 rfl, (h.2.2.2.2.2.1 (RR.new 2) 0 rfl).1,
    h.2.2.2.2.2.2 (TTL.new 5 1 1 2) 0 rfl⟩

/-- C7: TTL `get` at instant `now` on a present key: if the entry's expiry
has passed it returns `none`, counts exactly one miss and removes the
entry; if the entry is unexpired it returns the stored value, counts
exactly one hit and refreshes the entry's expiry to `now + ttl`. -/
theorem c7_ttl_get_expiry (K V : Type) [DecidableEq K]
    (s : TTL.State K V) (k : K) (e : TTL.Entry V) (now : Nat)
    (hnd : (akeys s.key_value_map).Nodup)
    (hk : alookup k s.key_value_map = some e) :
    (e.expiry ≤ now →
      (TTL.get k now s).1 = none ∧
      (TTL.get k now s).2.misses = s.misses + 1 ∧
      (TTL.get k now s).2.hits = s.hits ∧
      alookup k (TTL.get k now s).2.key_value_map = none) ∧
    (now < e.expiry →
      (TTL.get k now s).1 = some e.data ∧
      (TTL.get k now s).2.hits = s.hits + 1 ∧
      (TTL.get k now s).2.misses = s.misses ∧
      alookup k (TTL.get k now s).2.key_value_map
        = some { data := e.data, expiry := now + s.ttl }) := by
  have hmem : k ∉ akeys (aerase k s.key_value_map) := not_mem_akeys_aerase hnd
  constructor
  · intro hexp
    have hgt : ¬ e.expiry > now := not_lt.mpr hexp
    have hget : TTL.get k now s
        = (none, { s with key_value_map := aerase k (aerase k s.key_value_map ++ [(k, e)]),
                          misses := s.misses + 1 }) := by
      simp [TTL.get, lhmGetRefresh, hk, hgt]
    refine ⟨by rw [hget], by rw [hget], by rw [hget], ?_⟩
    rw [hget]
    show alookup k (aerase k (aerase k s.key_value_map ++ [(k, e)])) = none
    rw [aerase_append_single e hmem]
    exact (alookup_eq_none_iff_not_mem k _).mpr hmem
  · intro hexp
    have hgt : e.expiry > now := hexp
    have hget : TTL.get k now s = (some e.data, { s with key_value_map := ainsert k { e with expiry := now + s.ttl } (aerase k s.key_value_map ++ [(k, e)]), hits := s.hits + 1 }) := by
      simp [TTL.get, lhmGetRefresh, hk, hgt]
    refine ⟨by rw [hget], by rw [hget], by rw [hget], ?_⟩
    rw [hget]
    exact alookup_ainsert_self k _ _

/-- The indicator counted into `hits` by one operation. -/
theorem countHits_cons {K V σ : Type} (step : Ctx → Op K V → σ → Option (Option V × σ))
    (s : σ) (c : Ctx) (op : Op K V) (t : List (Ctx × Op K V)) (r : Option V) (s1 : σ)
    (h : step c op s = some (r, s1)) :
    countHits step s ((c, op) :: t) = hitInd op r + countHits step s1 t := by
  simp only [countHits, h]

theorem countMisses_cons {K V σ : Type} (step : Ctx → Op K V → σ → Option (Option V × σ))
    (s : σ) (c : Ctx) (op : Op K V) (t : List (Ctx × Op K V)) (r : Option V) (s1 : σ)
    (h : step c op s = some (r, s1)) :
    countMisses step s ((c, op) :: t) = missInd op r + countMisses step s1 t := by
  simp only [countMisses, h]

/-- Generic accounting over a run: if every single step adds exactly the
hit/miss indicator of its own `get` result to the counters and preserves
duplicate-freedom of the map's keys, then a whole run does too. -/
theorem run_counts_of_step {K V W σ : Type} [DecidableEq K]
    (step : Ctx → Op K V → σ → Option (Option V × σ))
    (mapOf : σ → List (K × W)) (hitsOf missesOf : σ → Nat)
    (hstep : ∀ c op s r s1, step c op s = some (r, s1) →
      hitsOf s1 = hitsOf s + hitInd op r ∧
      missesOf s1 = missesOf s + missInd op r ∧
      ((akeys (mapOf s)).Nodup → (akeys (mapOf s1)).Nodup)) :
    ∀ (ops : List (Ctx × Op K V)) (s s' : σ), (akeys (mapOf s)).Nodup →
      runOps step s ops = some s' →
      hitsOf s' = hitsOf s + countHits step s ops ∧
      missesOf s' = missesOf s + countMisses step s ops ∧
      (akeys (mapOf s')).Nodup := by
  intro ops
  induction ops with
  | nil =>
    intro s s' hnd hrun
    simp only [runOps, Option.some.injEq] at hrun
    subst hrun
    exact ⟨by simp [countHits], by simp [countMisses], hnd⟩
  | cons p t ih =>
    obtain ⟨c, op⟩ := p
    intro s s' hnd hrun
    simp only [runOps] at hrun
    cases hse : step c op s with
    | none => rw [hse] at hrun; exact absurd hrun (by simp)
    | some rs =>
      obtain ⟨r, s1⟩ := rs
      rw [hse] at hrun
      obtain ⟨h1, h2, h3⟩ := hstep c op s r s1 hse
      obtain ⟨ih1, ih2, ih3⟩ := ih s1 s' (h3 hnd) hrun
      refine ⟨?_, ?_, ih3⟩
      · rw [countHits_cons step s c op t r s1 hse, ih1, h1]
        omega
      · rw [countMisses_cons step s c op t r s1 hse, ih2, h2]
        omega

theorem fifo_shrink_sublist {K V : Type} [DecidableEq K] (cap : Nat) :
    ∀ (fifo : List K) (m : List (K × V)) (fifo' : List K) (m' : List (K × V)),
      FIFO.shrink cap fifo m = some (fifo', m') → List.Sublist m' m := by
  intro fifo
  induction fifo with
  | nil =>
    intro m fifo' m' h
    simp only [FIFO.shrink] at h
    by_cases hle : m.length ≤ cap
    · rw [if_pos hle] at h
      simp only [Option.some.injEq, Prod.mk.injEq] at h
      obtain ⟨h1, h2⟩ := h
      subst h2
      exact List.Sublist.refl m
    · rw [if_neg hle] at h
      cases h
  | cons o rest ih =>
    intro m fifo' m' h
    simp only [FIFO.shrink] at h
    by_cases hle : m.length ≤ cap
    · rw [if_pos hle] at h
      simp only [Option.some.injEq, Prod.mk.injEq] at h
      obtain ⟨h1, h2⟩ := h
      subst h2
      exact List.Sublist.refl m
    · rw [if_neg hle] at h
      exact (ih _ _ _ h).trans (aerase_sublist o m)

theorem fifo_step_effects {K V : Type} [DecidableEq K] (c : Ctx) (op : Op K V)
    (s : FIFO.State K V) (r : Option V) (s1 : FIFO.State K V)
    (h : FIFO.step c op s = some (r, s1)) :
    s1.hits = s.hits + hitInd op r ∧ s1.misses = s.misses + missInd op r ∧
    ((akeys s.key_value_map).Nodup → (akeys s1.key_value_map).Nodup) := by
  cases op with
  | get k =>
    have h' : FIFO.get k s = (r, s1) := Option.some.inj h
    rcases halo : alookup k s.key_value_map with _ | v
    · simp only [FIFO.get, halo, Option.isSome_none, Bool.false_eq_true, if_false,
        Prod.mk.injEq] at h'
      obtain ⟨rfl, rfl⟩ := h'
      exact ⟨by simp [hitInd], by simp [missInd], fun hnd => hnd⟩
    · simp only [FIFO.get, halo, Option.isSome_some, if_true, Prod.mk.injEq] at h'
      obtain ⟨rfl, rfl⟩ := h'
      exact ⟨by simp [hitInd], by simp [missInd], fun hnd => hnd⟩
  | set k v =>
    have h' : FIFO.set k v s = (r, s1) := Option.some.inj h
    by_cases hcap : s.key_value_map.length ≥ s.capacity
    · rcases hfifo : s.fifo with _ | ⟨o, rest⟩
      · simp only [FIFO.set, hcap, if_true, hfifo, popFront, Prod.mk.injEq] at h'
        obtain ⟨rfl, rfl⟩ := h'
        exact ⟨by simp [hitInd], by simp [missInd],
          fun hnd => nodup_akeys_ainsert k v hnd⟩
      · simp only [FIFO.set, hcap, if_true, hfifo, popFront, Prod.mk.injEq] at h'
        obtain ⟨rfl, rfl⟩ := h'
        exact ⟨by simp [hitInd], by simp [missInd],
          fun hnd => nodup_akeys_ainsert k v (nodup_akeys_aerase o hnd)⟩
    · simp only [FIFO.set, hcap, if_false, Prod.mk.injEq] at h'
      obtain ⟨rfl, rfl⟩ := h'
      exact ⟨by simp [hitInd], by simp [missInd],
        fun hnd => nodup_akeys_ainsert k v hnd⟩
  | remove k =>
    have h' : FIFO.remove k s = (r, s1) := Option.some.inj h
    simp only [FIFO.remove, Prod.mk.injEq] at h'
    obtain ⟨rfl, rfl⟩ := h'
    exact ⟨by simp [hitInd], by simp [missInd], fun hnd => nodup_akeys_aerase k hnd⟩
  | clear =>
    have h' : ((none : Option V), FIFO.clear s) = (r, s1) := Option.some.inj h
    injection h' with hr hs
    subst hr
    subst hs
    exact ⟨by simp [hitInd, FIFO.clear], by simp [missInd, FIFO.clear],
      fun _ => by simp [FIFO.clear, akeys]⟩
  | changeCapacity n =>
    cases hcc : FIFO.changeCapacity n s with
    | none => simp only [FIFO.step, hcc] at h; cases h
    | some s2 =>
      simp only [FIFO.step, hcc, Option.some.injEq, Prod.mk.injEq] at h
      obtain ⟨rfl, rfl⟩ := h
      simp only [FIFO.changeCapacity] at hcc
      cases hsh : FIFO.shrink n s.fifo s.key_value_map with
      | none => rw [hsh] at hcc; cases hcc
      | some fm =>
        obtain ⟨f, m⟩ := fm
        rw [hsh] at hcc
        simp only [Option.some.injEq] at hcc
        subst hcc
        refine ⟨by simp [hitInd], by simp [missInd], fun hnd => ?_⟩
        exact hnd.sublist
          (List.Sublist.map Prod.fst (fifo_shrink_sublist n s.fifo s.key_value_map f m hsh))

theorem lifo_shrink_sublist {K V : Type} [DecidableEq K] (cap : Nat) :
    ∀ (n : Nat) (lifo : List K), lifo.length ≤ n →
      ∀ (m : List (K × V)) (lifo' : List K) (m' : List (K × V)),
        LIFO.shrink cap lifo m = some (lifo', m') → List.Sublist m' m := by
  intro n
  induction n with
  | zero =>
    intro lifo hlen m lifo' m' h
    rw [LIFO.shrink] at h
    by_cases hle : m.length ≤ cap
    · rw [if_pos hle] at h
      simp only [Option.some.injEq, Prod.mk.injEq] at h
      obtain ⟨h1, h2⟩ := h
      subst h2
      exact List.Sublist.refl m
    · rw [if_neg hle] at h
      have hnil : lifo = [] := List.eq_nil_of_length_eq_zero (Nat.le_zero.mp hlen)
      subst hnil
      simp at h
  | succ n ih =>
    intro lifo hlen m lifo' m' h
    rw [LIFO.shrink] at h
    by_cases hle : m.length ≤ cap
    · rw [if_pos hle] at h
      simp only [Option.some.injEq, Prod.mk.injEq] at h
      obtain ⟨h1, h2⟩ := h
      subst h2
      exact List.Sublist.refl m
    · rw [if_neg hle] at h
      split at h
      · cases h
      · rename_i newest heq
        have hne : lifo ≠ [] := by
          intro e
          subst e
          simp at heq
        have hlen' : lifo.dropLast.length ≤ n := by
          have := List.length_pos.mpr hne
          rw [List.length_dropLast]
          omega
        exact (ih lifo.dropLast hlen' _ _ _ h).trans (aerase_sublist newest m)

theorem lifo_step_effects {K V : Type} [DecidableEq K] (c : Ctx) (op : Op K V)
    (s : LIFO.State K V) (r : Option V) (s1 : LIFO.State K V)
    (h : LIFO.step c op s = some (r, s1)) :
    s1.hits = s.hits + hitInd op r ∧ s1.misses = s.misses + missInd op r ∧
    ((akeys s.key_value_map).Nodup → (akeys s1.key_value_map).Nodup) := by
  cases op with
  | get k =>
    have h' : LIFO.get k s = (r, s1) := Option.some.inj h
    rcases halo : alookup k s.key_value_map with _ | v
    · simp only [LIFO.get, halo, Option.isSome_none, Bool.false_eq_true, if_false,
        Prod.mk.injEq] at h'
      obtain ⟨rfl, rfl⟩ := h'
      exact ⟨by simp [hitInd], by simp [missInd], fun hnd => hnd⟩
    · simp only [LIFO.get, halo, Option.isSome_some, if_true, Prod.mk.injEq] at h'
      obtain ⟨rfl, rfl⟩ := h'
      exact ⟨by simp [hitInd], by simp [missInd], fun hnd => hnd⟩
  | set k v =>
    have h' : LIFO.set k v s = (r, s1) := Option.some.inj h
    by_cases hcap : s.key_value_map.length ≥ s.capacity
    · rcases hlast : s.lifo.getLast? with _ | o
      · simp only [LIFO.set, hcap, if_true, hlast, Prod.mk.injEq] at h'
        obtain ⟨rfl, rfl⟩ := h'
        exact ⟨by simp [hitInd], by simp [missInd],
          fun hnd => nodup_akeys_ainsert k v hnd⟩
      · simp only [LIFO.set, hcap, if_true, hlast, Prod.mk.injEq] at h'
        obtain ⟨rfl, rfl⟩ := h'
        exact ⟨by simp [hitInd], by simp [missInd],
          fun hnd => nodup_akeys_ainsert k v (nodup_akeys_aerase o hnd)⟩
    · simp only [LIFO.set, hcap, if_false, Prod.mk.injEq] at h'
      obtain ⟨rfl, rfl⟩ := h'
      exact ⟨by simp [hitInd], by simp [missInd],
        fun hnd => nodup_akeys_ainsert k v hnd⟩
  | remove k =>
    have h' : LIFO.remove k s = (r, s1) := Option.some.inj h
    simp only [LIFO.remove, Prod.mk.injEq] at h'
    obtain ⟨rfl, rfl⟩ := h'
    exact ⟨by simp [hitInd], by simp [missInd], fun hnd => nodup_akeys_aerase k hnd⟩
  | clear =>
    have h' : ((none : Option V), LIFO.clear s) = (r, s1) := Option.some.inj h
    injection h' with hr hs
    subst hr
    subst hs
    exact ⟨by simp [hitInd, LIFO.clear], by simp [missInd, LIFO.clear],
      fun _ => by simp [LIFO.clear, akeys]⟩
  | changeCapacity n =>
    cases hcc : LIFO.changeCapacity n s with
    | none => simp only [LIFO.step, hcc] at h; cases h
    | some s2 =>
      simp only [LIFO.step, hcc, Option.some.injEq, Prod.mk.injEq] at h
      obtain ⟨rfl, rfl⟩ := h
      simp only [LIFO.changeCapacity] at hcc
      cases hsh : LIFO.shrink n s.lifo s.key_value_map with
      | none => rw [hsh] at hcc; cases hcc
      | some fm =>
        obtain ⟨f, m⟩ := fm
        rw [hsh] at hcc
        simp only [Option.some.injEq] at hcc
        subst hcc
        refine ⟨by simp [hitInd], by simp [missInd], fun hnd => ?_⟩
        exact hnd.sublist (List.Sublist.map Prod.fst
          (lifo_shrink_sublist n s.lifo.length s.lifo (Nat.le_refl _)
            s.key_value_map f m hsh))

theorem lru_shrink_sublist {K V : Type} [DecidableEq K] (cap : Nat) :
    ∀ m : List (K × V), List.Sublist (LRU.shrink cap m) m := by
  intro m
  induction m with
  | nil => rw [LRU.shrink]; simp
  | cons p t ih =>
    rw [LRU.shrink]
    by_cases hle : (p :: t).length ≤ cap
    · rw [if_pos hle]
    · rw [if_neg hle]
      exact ih.trans (List.sublist_cons_self p t)

theorem lru_step_effects {K V : Type} [DecidableEq K] (c : Ctx) (op : Op K V)
    (s : LRU.State K V) (r : Option V) (s1 : LRU.State K V)
    (h : LRU.step c op s = some (r, s1)) :
    s1.hits = s.hits + hitInd op r ∧ s1.misses = s.misses + missInd op r ∧
    ((akeys s.key_value_map).Nodup → (akeys s1.key_value_map).Nodup) := by
  cases op with
  | get k =>
    have h' : LRU.get k s = (r, s1) := Option.some.inj h
    rcases halo : alookup k s.key_value_map with _ | v
    · simp only [LRU.get, lhmGetRefresh, halo, Option.isSome_none, Bool.false_eq_true,
        if_false, Prod.mk.injEq] at h'
      obtain ⟨rfl, rfl⟩ := h'
      exact ⟨by simp [hitInd], by simp [missInd], fun hnd => hnd⟩
    · simp only [LRU.get, lhmGetRefresh, halo, Option.isSome_some, if_true,
        Prod.mk.injEq] at h'
      obtain ⟨rfl, rfl⟩ := h'
      exact ⟨by simp [hitInd], by simp [missInd],
        fun hnd => nodup_akeys_lhmInsert k v hnd⟩
  | set k v =>
    have h' : LRU.set k v s = (r, s1) := Option.some.inj h
    simp only [LRU.set, lhmInsert, Prod.mk.injEq] at h'
    obtain ⟨rfl, rfl⟩ := h'
    refine ⟨by simp [hitInd], by simp [missInd], fun hnd => ?_⟩
    have hins := nodup_akeys_lhmInsert k v hnd
    by_cases hlen : (aerase k s.key_value_map ++ [(k, v)]).length > s.capacity
    · rw [if_pos hlen]
      exact hins.sublist (List.Sublist.map Prod.fst (List.tail_sublist _))
    · rw [if_neg hlen]
      exact hins
  | remove k =>
    have h' : LRU.remove k s = (r, s1) := Option.some.inj h
    simp only [LRU.remove, Prod.mk.injEq] at h'
    obtain ⟨rfl, rfl⟩ := h'
    exact ⟨by simp [hitInd], by simp [missInd], fun hnd => nodup_akeys_aerase k hnd⟩
  | clear =>
    have h' : ((none : Option V), LRU.clear s) = (r, s1) := Option.some.inj h
    injection h' with hr hs
    subst hr
    subst hs
    exact ⟨by simp [hitInd, LRU.clear], by simp [missInd, LRU.clear],
      fun _ => by simp [LRU.clear, akeys]⟩
  | changeCapacity n =>
    have h' : ((none : Option V), LRU.changeCapacity n s) = (r, s1) := Option.some.inj h
    injection h' with hr hs
    subst hr
    subst hs
    refine ⟨by simp [hitInd, LRU.changeCapacity], by simp [missInd, LRU.changeCapacity], fun hnd => ?_⟩
    exact hnd.sublist (List.Sublist.map Prod.fst (lru_shrink_sublist n s.key_value_map))

theorem mru_shrink_sublist {K V : Type} [DecidableEq K] (cap : Nat) :
    ∀ (n : Nat) (m : List (K × V)), m.length ≤ n →
      List.Sublist (MRU.shrink cap m) m := by
  intro n
  induction n with
  | zero =>
    intro m hlen
    have hnil : m = [] := List.eq_nil_of_length_eq_zero (Nat.le_zero.mp hlen)
    subst hnil
    rw [MRU.shrink]
    simp
  | succ n ih =>
    intro m hlen
    rw [MRU.shrink]
    by_cases hle : m.length ≤ cap
    · rw [dif_pos hle]
    · rw [dif_neg hle]
      cases m with
      | nil => simp
      | cons a t =>
        have hlen' : (a :: t).dropLast.length ≤ n := by
          rw [List.length_dropLast, List.length_cons]
          simp only [List.length_cons] at hlen
          omega
        exact (ih _ hlen').trans (List.dropLast_sublist (a :: t))

theorem mru_step_effects {K V : Type} [DecidableEq K] (c : Ctx) (op : Op K V)
    (s : MRU.State K V) (r : Option V) (s1 : MRU.State K V)
    (h : MRU.step c op s = some (r, s1)) :
    s1.hits = s.hits + hitInd op r ∧ s1.misses = s.misses + missInd op r ∧
    ((akeys s.key_value_map).Nodup → (akeys s1.key_value_map).Nodup) := by
  cases op with
  | get k =>
    have h' : MRU.get k s = (r, s1) := Option.some.inj h
    rcases halo : alookup k s.key_value_map with _ | v
    · simp only [MRU.get, lhmGetRefresh, halo, Option.isSome_none, Bool.false_eq_true,
        if_false, Prod.mk.injEq] at h'
      obtain ⟨rfl, rfl⟩ := h'
      exact ⟨by simp [hitInd], by simp [missInd], fun hnd => hnd⟩
    · simp only [MRU.get, lhmGetRefresh, halo, Option.isSome_some, if_true,
        Prod.mk.injEq] at h'
      obtain ⟨rfl, rfl⟩ := h'
      exact ⟨by simp [hitInd], by simp [missInd],
        fun hnd => nodup_akeys_lhmInsert k v hnd⟩
  | set k v =>
    have h' : MRU.set k v s = (r, s1) := Option.some.inj h
    simp only [MRU.set, lhmInsert, Prod.mk.injEq] at h'
    obtain ⟨rfl, rfl⟩ := h'
    refine ⟨by simp [hitInd], by simp [missInd], fun hnd => ?_⟩
    by_cases hlen : s.key_value_map.length + 1 > s.capacity
    · rw [if_pos hlen]
      exact nodup_akeys_lhmInsert k v
        (hnd.sublist (List.Sublist.map Prod.fst (List.dropLast_sublist _)))
    · rw [if_neg hlen]
      exact nodup_akeys_lhmInsert k v hnd
  | remove k =>
    have h' : MRU.remove k s = (r, s1) := Option.some.inj h
    simp only [MRU.remove, Prod.mk.injEq] at h'
    obtain ⟨rfl, rfl⟩ := h'
    exact ⟨by simp [hitInd], by simp [missInd], fun hnd => nodup_akeys_aerase k hnd⟩
  | clear =>
    have h' : ((none : Option V), MRU.clear s) = (r, s1) := Option.some.inj h
    injection h' with hr hs
    subst hr
    subst hs
    exact ⟨by simp [hitInd, MRU.clear], by simp [missInd, MRU.clear],
      fun _ => by simp [MRU.clear, akeys]⟩
  | changeCapacity n =>
    have h' : ((none : Option V), MRU.changeCapacity n s) = (r, s1) := Option.some.inj h
    injection h' with hr hs
    subst hr
    subst hs
    refine ⟨by simp [hitInd, MRU.changeCapacity], by simp [missInd, MRU.changeCapacity], fun hnd => ?_⟩
    exact hnd.sublist (List.Sublist.map Prod.fst
      (mru_shrink_sublist n s.key_value_map.length s.key_value_map (Nat.le_refl _)))

theorem lfu_increaseFreq_frame {K V : Type} [DecidableEq K] (k : K) (s : LFU.State K V) :
    (LFU.increaseFreq k s).key_value_map = s.key_value_map ∧
    (LFU.increaseFreq k s).hits = s.hits ∧
    (LFU.increaseFreq k s).misses = s.misses := by
  simp only [LFU.increaseFreq]
  split <;> exact ⟨rfl, rfl, rfl⟩

theorem lfu_removeLeastFreq_frame {K V : Type} [DecidableEq K] (s : LFU.State K V) :
    (LFU.removeLeastFreq s).hits = s.hits ∧
    (LFU.removeLeastFreq s).misses = s.misses ∧
    List.Sublist (LFU.removeLeastFreq s).key_value_map s.key_value_map := by
  simp only [LFU.removeLeastFreq]
  split
  · exact ⟨rfl, rfl, List.Sublist.refl _⟩
  · split
    · exact ⟨rfl, rfl, List.Sublist.refl _⟩
    · exact ⟨rfl, rfl, List.Sublist.refl _⟩
  · split
    · exact ⟨rfl, rfl, aerase_sublist _ _⟩
    · exact ⟨rfl, rfl, aerase_sublist _ _⟩

theorem lfu_shrink_frame {K V : Type} [DecidableEq K] (cap : Nat) :
    ∀ (fuel : Nat) (s s' : LFU.State K V), LFU.shrink cap fuel s = some s' →
      s'.hits = s.hits ∧ s'.misses = s.misses ∧
      List.Sublist s'.key_value_map s.key_value_map := by
  intro fuel
  induction fuel with
  | zero =>
    intro s s' h
    simp only [LFU.shrink] at h
    by_cases hle : s.key_value_map.length ≤ cap
    · rw [if_pos hle] at h
      cases h
      exact ⟨rfl, rfl, List.Sublist.refl _⟩
    · rw [if_neg hle] at h
      cases h
  | succ n ih =>
    intro s s' h
    simp only [LFU.shrink] at h
    by_cases hle : s.key_value_map.length ≤ cap
    · rw [if_pos hle] at h
      cases h
      exact ⟨rfl, rfl, List.Sublist.refl _⟩
    · rw [if_neg hle] at h
      obtain ⟨ih1, ih2, ih3⟩ := ih (LFU.removeLeastFreq s) s' h
      obtain ⟨hf1, hf2, hf3⟩ := lfu_removeLeastFreq_frame s
      exact ⟨by rw [ih1, hf1], by rw [ih2, hf2], ih3.trans hf3⟩

theorem lfu_step_effects {K V : Type} [DecidableEq K] (c : Ctx) (op : Op K V)
    (s : LFU.State K V) (r : Option V) (s1 : LFU.State K V)
    (h : LFU.step c op s = some (r, s1)) :
    s1.hits = s.hits + hitInd op r ∧ s1.misses = s.misses + missInd op r ∧
    ((akeys s.key_value_map).Nodup → (akeys s1.key_value_map).Nodup) := by
  cases op with
  | get k =>
    have h' : LFU.get k s = (r, s1) := Option.some.inj h
    rcases halo : alookup k s.key_value_map with _ | v
    · simp only [LFU.get, halo, Option.isSome_none, Bool.false_eq_true, if_false,
        Prod.mk.injEq] at h'
      obtain ⟨rfl, rfl⟩ := h'
      exact ⟨by simp [hitInd], by simp [missInd], fun hnd => hnd⟩
    · simp only [LFU.get, halo, Option.isSome_some, if_true, Prod.mk.injEq] at h'
      obtain ⟨rfl, rfl⟩ := h'
      obtain ⟨hm, hh, hmiss⟩ := lfu_increaseFreq_frame k
        { s with hits := s.hits + 1 }
      exact ⟨by rw [hh]; simp [hitInd], by rw [hmiss]; simp [missInd],
        fun hnd => by rw [hm]; exact hnd⟩
  | set k v =>
    have h' : LFU.set k v s = (r, s1) := Option.some.inj h
    rcases halo : alookup k s.key_value_map with _ | v0
    · by_cases hcap : s.key_value_map.length ≥ s.capacity
      · simp only [LFU.set, halo, Option.isSome_none, Bool.false_eq_true, if_false,
          hcap, if_true, Prod.mk.injEq] at h'
        obtain ⟨rfl, rfl⟩ := h'
        obtain ⟨hf1, hf2, hf3⟩ := lfu_removeLeastFreq_frame s
        refine ⟨by simp [hitInd, hf1], by simp [missInd, hf2], fun hnd => ?_⟩
        exact nodup_akeys_ainsert k v
          (hnd.sublist (List.Sublist.map Prod.fst hf3))
      · simp only [LFU.set, halo, Option.isSome_none, Bool.false_eq_true, if_false,
          hcap, Prod.mk.injEq] at h'
        obtain ⟨rfl, rfl⟩ := h'
        exact ⟨by simp [hitInd], by simp [missInd],
          fun hnd => nodup_akeys_ainsert k v hnd⟩
    · simp only [LFU.set, halo, Option.isSome_some, if_true, Prod.mk.injEq] at h'
      obtain ⟨rfl, rfl⟩ := h'
      obtain ⟨hm, hh, hmiss⟩ := lfu_increaseFreq_frame k
        { s with key_value_map := ainsert k v s.key_value_map }
      exact ⟨by rw [hh]; simp [hitInd], by rw [hmiss]; simp [missInd],
        fun hnd => by rw [hm]; exact nodup_akeys_ainsert k v hnd⟩
  | remove k =>
    have h' : LFU.remove k s = (r, s1) := Option.some.inj h
    rcases halo : alookup k s.key_value_map with _ | v0
    · simp only [LFU.remove, halo, Option.isSome_none, Bool.false_eq_true, if_false,
        Prod.mk.injEq] at h'
      obtain ⟨rfl, rfl⟩ := h'
      exact ⟨by simp [hitInd], by simp [missInd], fun hnd => nodup_akeys_aerase k hnd⟩
    · simp only [LFU.remove, halo, Option.isSome_some, if_true] at h'
      split at h'
      · simp only [Prod.mk.injEq] at h'
        obtain ⟨rfl, rfl⟩ := h'
        exact ⟨by simp [hitInd], by simp [missInd],
          fun hnd => nodup_akeys_aerase k hnd⟩
      · split at h' <;>
          (simp only [Prod.mk.injEq] at h'
           obtain ⟨rfl, rfl⟩ := h'
           exact ⟨by simp [hitInd], by simp [missInd],
             fun hnd => nodup_akeys_aerase k hnd⟩)
  | clear =>
    have h' : ((none : Option V), LFU.clear s) = (r, s1) := Option.some.inj h
    injection h' with hr hs
    subst hr
    subst hs
    exact ⟨by simp [hitInd, LFU.clear], by simp [missInd, LFU.clear],
      fun _ => by simp [LFU.clear, akeys]⟩
  | changeCapacity n =>
    cases hcc : LFU.changeCapacity n (LFU.loopFuel s) s with
    | none => simp only [LFU.step, hcc] at h; cases h
    | some s2 =>
      simp only [LFU.step, hcc, Option.some.injEq, Prod.mk.injEq] at h
      obtain ⟨rfl, rfl⟩ := h
      simp only [LFU.changeCapacity] at hcc
      obtain ⟨hf1, hf2, hf3⟩ := lfu_shrink_frame n (LFU.loopFuel s)
        { s with capacity := n } s2 hcc
      exact ⟨by simp [hitInd, hf1], by simp [missInd, hf2],
        fun hnd => hnd.sublist (List.Sublist.map Prod.fst hf3)⟩

theorem swapRemove_length {K : Type} (keys : List K) (i : Nat) (h : keys ≠ []) :
    (RR.swapRemove keys i).length = keys.length - 1 := by
  cases keys with
  | nil => exact absurd rfl h
  | cons a t =>
    simp only [RR.swapRemove]
    cases hlast : (a :: t).getLast? with
    | none => simp at hlast
    | some x => simp [List.length_dropLast]

theorem rr_shrink_sublist {K V : Type} [DecidableEq K] (cap : Nat) :
    ∀ (n : Nat) (keys : List K), keys.length ≤ n →
      ∀ (rs : List Nat) (m : List (K × V)) (keys' : List K) (m' : List (K × V)),
        RR.shrink cap rs keys m = some (keys', m') → List.Sublist m' m := by
  intro n
  induction n with
  | zero =>
    intro keys hlen rs m keys' m' h
    have hnil : keys = [] := List.eq_nil_of_length_eq_zero (Nat.le_zero.mp hlen)
    subst hnil
    rw [RR.shrink.eq_def] at h
    by_cases hle : m.length ≤ cap
    · rw [if_pos hle] at h
      simp only [Option.some.injEq, Prod.mk.injEq] at h
      obtain ⟨h1, h2⟩ := h
      subst h2
      exact List.Sublist.refl m
    · rw [if_neg hle] at h
      simp at h
  | succ n ih =>
    intro keys hlen rs m keys' m' h
    rw [RR.shrink.eq_def] at h
    by_cases hle : m.length ≤ cap
    · rw [if_pos hle] at h
      simp only [Option.some.injEq, Prod.mk.injEq] at h
      obtain ⟨h1, h2⟩ := h
      subst h2
      exact List.Sublist.refl m
    · rw [if_neg hle] at h
      by_cases hk : keys.isEmpty
      · rw [dif_pos hk] at h
        cases h
      · rw [dif_neg hk] at h
        split at h
        · cases h
        · rename_i removed hget
          have hne : keys ≠ [] := by
            intro e
            subst e
            simp at hk
          have hlen' : (RR.swapRemove keys ((rs.headD 0) % keys.length)).length ≤ n := by
            rw [swapRemove_length keys _ hne]
            have := List.length_pos.mpr hne
            omega
          exact (ih _ hlen' _ _ _ _ h).trans (aerase_sublist removed m)

theorem rr_step_effects {K V : Type} [DecidableEq K] (c : Ctx) (op : Op K V)
    (s : RR.State K V) (r : Option V) (s1 : RR.State K V)
    (h : RR.step c op s = some (r, s1)) :
    s1.hits = s.hits + hitInd op r ∧ s1.misses = s.misses + missInd op r ∧
    ((akeys s.key_value_map).Nodup → (akeys s1.key_value_map).Nodup) := by
  cases op with
  | get k =>
    have h' : RR.get k s = (r, s1) := Option.some.inj h
    rcases halo : alookup k s.key_value_map with _ | v
    · simp only [RR.get, halo, Option.isSome_none, Bool.false_eq_true, if_false,
        Prod.mk.injEq] at h'
      obtain ⟨rfl, rfl⟩ := h'
      exact ⟨by simp [hitInd], by simp [missInd], fun hnd => hnd⟩
    · simp only [RR.get, halo, Option.isSome_some, if_true, Prod.mk.injEq] at h'
      obtain ⟨rfl, rfl⟩ := h'
      exact ⟨by simp [hitInd], by simp [missInd], fun hnd => hnd⟩
  | set k v =>
    replace h : RR.set k v c.rand s = some (r, s1) := h
    by_cases hcap : s.key_value_map.length ≥ s.capacity
    · by_cases hk : s.keys.isEmpty
      · simp only [RR.set, hcap, if_true, hk] at h
        cases h
      · cases hget : s.keys.get? (c.rand % s.keys.length) with
        | none =>
          simp only [RR.set, hcap, if_true, hk, Bool.false_eq_true, if_false,
            hget] at h
          cases h
        | some removed =>
          simp only [RR.set, hcap, if_true, hk, Bool.false_eq_true, if_false, hget,
            Option.some.injEq, Prod.mk.injEq] at h
          obtain ⟨rfl, rfl⟩ := h
          exact ⟨by simp [hitInd], by simp [missInd],
            fun hnd => nodup_akeys_ainsert k v (nodup_akeys_aerase removed hnd)⟩
    · simp only [RR.set, hcap, if_false, Option.some.injEq, Prod.mk.injEq] at h
      obtain ⟨rfl, rfl⟩ := h
      exact ⟨by simp [hitInd], by simp [missInd],
        fun hnd => nodup_akeys_ainsert k v hnd⟩
  | remove k =>
    have h' : RR.remove k s = (r, s1) := Option.some.inj h
    simp only [RR.remove, Prod.mk.injEq] at h'
    obtain ⟨rfl, rfl⟩ := h'
    exact ⟨by simp [hitInd], by simp [missInd], fun hnd => nodup_akeys_aerase k hnd⟩
  | clear =>
    have h' : ((none : Option V), RR.clear s) = (r, s1) := Option.some.inj h
    injection h' with hr hs
    subst hr
    subst hs
    exact ⟨by simp [hitInd, RR.clear], by simp [missInd, RR.clear],
      fun _ => by simp [RR.clear, akeys]⟩
  | changeCapacity n =>
    cases hcc : RR.changeCapacity n c.rands s with
    | none => simp only [RR.step, hcc] at h; cases h
    | some s2 =>
      simp only [RR.step, hcc, Option.some.injEq, Prod.mk.injEq] at h
      obtain ⟨rfl, rfl⟩ := h
      simp only [RR.changeCapacity] at hcc
      cases hsh : RR.shrink n c.rands s.keys s.key_value_map with
      | none => rw [hsh] at hcc; cases hcc
      | some fm =>
        obtain ⟨f, m⟩ := fm
        rw [hsh] at hcc
        simp only [Option.some.injEq] at hcc
        subst hcc
        refine ⟨by simp [hitInd], by simp [missInd], fun hnd => ?_⟩
        exact hnd.sublist (List.Sublist.map Prod.fst
          (rr_shrink_sublist n s.keys.length s.keys (Nat.le_refl _) c.rands
            s.key_value_map f m hsh))

theorem ttl_enforce_frame {K V : Type} [DecidableEq K] (s : TTL.State K V) :
    (TTL.enforceCapacity s).hits = s.hits ∧
    (TTL.enforceCapacity s).misses = s.misses ∧
    (TTL.enforceCapacity s).ttl = s.ttl ∧
    List.Sublist (TTL.enforceCapacity s).key_value_map s.key_value_map := by
  simp only [TTL.enforceCapacity]
  split
  · split
    · exact ⟨rfl, rfl, rfl, List.Sublist.refl _⟩
    · exact ⟨rfl, rfl, rfl, aerase_sublist _ _⟩
  · exact ⟨rfl, rfl, rfl, List.Sublist.refl _⟩

theorem ttl_shrink_sublist {K V : Type} [DecidableEq K] (cap : Nat) :
    ∀ (n : Nat) (m : List (K × TTL.Entry V)), m.length ≤ n →
      List.Sublist (TTL.shrink cap m) m := by
  intro n
  induction n with
  | zero =>
    intro m hlen
    have hnil : m = [] := List.eq_nil_of_length_eq_zero (Nat.le_zero.mp hlen)
    subst hnil
    rw [TTL.shrink.eq_def]
    simp
  | succ n ih =>
    intro m hlen
    rw [TTL.shrink.eq_def]
    by_cases hle : m.length ≤ cap
    · rw [if_pos hle]
    · rw [if_neg hle]
      cases m with
      | nil => simp
      | cons p t =>
        obtain ⟨k, e⟩ := p
        show List.Sublist (TTL.shrink cap (aerase k ((k, e) :: t))) ((k, e) :: t)
        rw [show aerase k ((k, e) :: t) = t from by simp [aerase]]
        have hlen' : t.length ≤ n := by
          simp only [List.length_cons] at hlen
          omega
        exact (ih t hlen').trans (List.sublist_cons_self (k, e) t)

theorem ttl_step_effects {K V : Type} [DecidableEq K] (c : Ctx) (op : Op K V)
    (s : TTL.State K V) (r : Option V) (s1 : TTL.State K V)
    (h : TTL.step c op s = some (r, s1)) :
    s1.hits = s.hits + hitInd op r ∧ s1.misses = s.misses + missInd op r ∧
    ((akeys s.key_value_map).Nodup → (akeys s1.key_value_map).Nodup) := by
  cases op with
  | get k =>
    have h' : TTL.get k c.now s = (r, s1) := Option.some.inj h
    rcases halo : alookup k s.key_value_map with _ | e
    · simp only [TTL.get, lhmGetRefresh, halo, Prod.mk.injEq] at h'
      obtain ⟨rfl, rfl⟩ := h'
      exact ⟨by simp [hitInd], by simp [missInd], fun hnd => hnd⟩
    · by_cases hexp : e.expiry > c.now
      · simp only [TTL.get, lhmGetRefresh, halo, hexp, if_true, Prod.mk.injEq] at h'
        obtain ⟨rfl, rfl⟩ := h'
        exact ⟨by simp [hitInd], by simp [missInd],
          fun hnd => nodup_akeys_ainsert k _ (nodup_akeys_lhmInsert k e hnd)⟩
      · simp only [TTL.get, lhmGetRefresh, halo, hexp, if_false, Prod.mk.injEq] at h'
        obtain ⟨rfl, rfl⟩ := h'
        exact ⟨by simp [hitInd], by simp [missInd],
          fun hnd => nodup_akeys_aerase k (nodup_akeys_lhmInsert k e hnd)⟩
  | set k v =>
    have h' : TTL.set k v c.now s = (r, s1) := Option.some.inj h
    rcases halo : alookup k s.key_value_map with _ | e
    · simp only [TTL.set, halo, Option.isSome_none, Bool.false_eq_true, if_false,
        lhmInsert, Prod.mk.injEq] at h'
      obtain ⟨rfl, rfl⟩ := h'
      obtain ⟨hf1, hf2, hf3, hf4⟩ := ttl_enforce_frame s
      refine ⟨by simp [hitInd, hf1], by simp [missInd, hf2], fun hnd => ?_⟩
      exact nodup_akeys_lhmInsert k _
        (hnd.sublist (List.Sublist.map Prod.fst hf4))
    · simp only [TTL.set, halo, Option.isSome_some, if_true, lhmInsert,
        Prod.mk.injEq] at h'
      obtain ⟨rfl, rfl⟩ := h'
      exact ⟨by simp [hitInd], by simp [missInd],
        fun hnd => nodup_akeys_lhmInsert k _ hnd⟩
  | remove k =>
    have h' : TTL.remove k s = (r, s1) := Option.some.inj h
    simp only [TTL.remove, Prod.mk.injEq] at h'
    obtain ⟨rfl, rfl⟩ := h'
    exact ⟨by simp [hitInd], by simp [missInd], fun hnd => nodup_akeys_aerase k hnd⟩
  | clear =>
    have h' : ((none : Option V), TTL.clear s) = (r, s1) := Option.some.inj h
    injection h' with hr hs
    subst hr
    subst hs
    exact ⟨by simp [hitInd, TTL.clear], by simp [missInd, TTL.clear],
      fun _ => by simp [TTL.clear, akeys]⟩
  | changeCapacity n =>
    have h' : ((none : Option V), TTL.changeCapacity n s) = (r, s1) := Option.some.inj h
    injection h' with hr hs
    subst hr
    subst hs
    refine ⟨by simp [hitInd, TTL.changeCapacity], by simp [missInd, TTL.changeCapacity], fun hnd => ?_⟩
    exact hnd.sublist (List.Sublist.map Prod.fst
      (ttl_shrink_sublist n s.key_value_map.length s.key_value_map (Nat.le_refl _)))

/-- C8: for every engine and every operation sequence that runs to
completion from a fresh cache, `stats()` reports exactly the number of
`get` calls that found a value as `hits`, exactly the number that found
none as `misses`, and a `size` equal to the number of currently-present
keys (the map's keys are duplicate-free and a key is present exactly when
it is one of them). -/
theorem c8_stats_accurate (K V : Type) [DecidableEq K] :
    (∀ (cap : Nat) (ops : List (Ctx × Op K V)) (s' : FIFO.State K V),
      runOps FIFO.step (FIFO.new cap) ops = some s' →
      (FIFO.stats s').hits = countHits FIFO.step (FIFO.new cap) ops ∧
      (FIFO.stats s').misses = countMisses FIFO.step (FIFO.new cap) ops ∧
      (FIFO.stats s').size = (akeys s'.key_value_map).length ∧
      (akeys s'.key_value_map).Nodup ∧
      (∀ k, (alookup k s'.key_value_map).isSome ↔ k ∈ akeys s'.key_value_map)) ∧
    (∀ (cap : Nat) (ops : List (Ctx × Op K V)) (s' : LIFO.State K V),
      runOps LIFO.step (LIFO.new cap) ops = some s' →
      (LIFO.stats s').hits = countHits LIFO.step (LIFO.new cap) ops ∧
      (LIFO.stats s').misses = countMisses LIFO.step (LIFO.new cap) ops ∧
      (LIFO.stats s').size = (akeys s'.key_value_map).length ∧
      (akeys s'.key_value_map).Nodup ∧
      (∀ k, (alookup k s'.key_value_map).isSome ↔ k ∈ akeys s'.key_value_map)) ∧
    (∀ (cap : Nat) (ops : List (Ctx × Op K V)) (s' : LRU.State K V),
      runOps LRU.step (LRU.new cap) ops = some s' →
      (LRU.stats s').hits = countHits LRU.step (LRU.new cap) ops ∧
      (LRU.stats s').misses = countMisses LRU.step (LRU.new cap) ops ∧
      (LRU.stats s').size = (akeys s'.key_value_map).length ∧
      (akeys s'.key_value_map).Nodup ∧
      (∀ k, (alookup k s'.key_value_map).isSome ↔ k ∈ akeys s'.key_value_map)) ∧
    (∀ (cap : Nat) (ops : List (Ctx × Op K V)) (s' : MRU.State K V),
      runOps MRU.step (MRU.new cap) ops = some s' →
      (MRU.stats s').hits = countHits MRU.step (MRU.new cap) ops ∧
      (MRU.stats s').misses = countMisses MRU.step (MRU.new cap) ops ∧
      (MRU.stats s').size = (akeys s'.key_value_map).length ∧
      (akeys s'.key_value_map).Nodup ∧
      (∀ k, (alookup k s'.key_value_map).isSome ↔ k ∈ akeys s'.key_value_map)) ∧
    (∀ (cap : Nat) (ops : List (Ctx × Op K V)) (s' : LFU.State K V),
      runOps LFU.step (LFU.new cap) ops = some s' →
      (LFU.stats s').hits = countHits LFU.step (LFU.new cap) ops ∧
      (LFU.stats s').misses = countMisses LFU.step (LFU.new cap) ops ∧
      (LFU.stats s').size = (akeys s'.key_value_map).length ∧
      (akeys s'.key_value_map).Nodup ∧
      (∀ k, (alookup k s'.key_value_map).isSome ↔ k ∈ akeys s'.key_value_map)) ∧
    (∀ (cap : Nat) (ops : List (Ctx × Op K V)) (s' : RR.State K V),
      runOps RR.step (RR.new cap) ops = some s' →
      (RR.stats s').hits = countHits RR.step (RR.new cap) ops ∧
      (RR.stats s').misses = countMisses RR.step (RR.new cap) ops ∧
      (RR.stats s').size = (akeys s'.key_value_map).length ∧
      (akeys s'.key_value_map).Nodup ∧
      (∀ k, (alookup k s'.key_value_map).isSome ↔ k ∈ akeys s'.key_value_map)) ∧
    (∀ (ttl ci j cap : Nat) (ops : List (Ctx × Op K V)) (s' : TTL.State K V),
      runOps TTL.step (TTL.new ttl ci j cap) ops = some s' →
      (TTL.stats s').hits = countHits TTL.step (TTL.new ttl ci j cap) ops ∧
      (TTL.stats s').misses = countMisses TTL.step (TTL.new ttl ci j cap) ops ∧
      (TTL.stats s').size = (akeys s'.key_value_map).length ∧
      (akeys s'.key_value_map).Nodup ∧
      (∀ k, (alookup k s'.key_value_map).isSome ↔ k ∈ akeys s'.key_value_map)) := by
  refine ⟨?_, ?_, ?_, ?_, ?_, ?_, ?_⟩
  · intro cap ops s' hrun
    obtain ⟨h1, h2, h3⟩ := run_counts_of_step FIFO.step (fun s => s.key_value_map)
      (fun s => s.hits) (fun s => s.misses)
      (fun c op s r s1 h => fifo_step_effects c op s r s1 h)
      ops (FIFO.new cap) s' (by simp [FIFO.new, akeys]) hrun
    exact ⟨by simpa [FIFO.stats, FIFO.new] using h1,
      by simpa [FIFO.stats, FIFO.new] using h2,
      by simp [FIFO.stats, akeys], h3, fun k => alookup_isSome_iff_mem k _⟩
  · intro cap ops s' hrun
    obtain ⟨h1, h2, h3⟩ := run_counts_of_step LIFO.step (fun s => s.key_value_map)
      (fun s => s.hits) (fun s => s.misses)
      (fun c op s r s1 h => lifo_step_effects c op s r s1 h)
      ops (LIFO.new cap) s' (by simp [LIFO.new, akeys]) hrun
    exact ⟨by simpa [LIFO.stats, LIFO.new] using h1,
      by simpa [LIFO.stats, LIFO.new] using h2,
      by simp [LIFO.stats, akeys], h3, fun k => alookup_isSome_iff_mem k _⟩
  · intro cap ops s' hrun
    obtain ⟨h1, h2, h3⟩ := run_counts_of_step LRU.step (fun s => s.key_value_map)
      (fun s => s.hits) (fun s => s.misses)
      (fun c op s r s1 h => lru_step_effects c op s r s1 h)
      ops (LRU.new cap) s' (by simp [LRU.new, akeys]) hrun
    exact ⟨by simpa [LRU.stats, LRU.new] using h1,
      by simpa [LRU.stats, LRU.new] using h2,
      by simp [LRU.stats, akeys], h3, fun k => alookup_isSome_iff_mem k _⟩
  · intro cap ops s' hrun
    obtain ⟨h1, h2, h3⟩ := run_counts_of_step MRU.step (fun s => s.key_value_map)
      (fun s => s.hits) (fun s => s.misses)
      (fun c op s r s1 h => mru_step_effects c op s r s1 h)
      ops (MRU.new cap) s' (by simp [MRU.new, akeys]) hrun
    exact ⟨by simpa [MRU.stats, MRU.new] using h1,
      by simpa [MRU.stats, MRU.new] using h2,
      by simp [MRU.stats, akeys], h3, fun k => alookup_isSome_iff_mem k _⟩
  · intro cap ops s' hrun
    obtain ⟨h1, h2, h3⟩ := run_counts_of_step LFU.step (fun s => s.key_value_map)
      (fun s => s.hits) (fun s => s.misses)
      (fun c op s r s1 h => lfu_step_effects c op s r s1 h)
      ops (LFU.new cap) s' (by simp [LFU.new, akeys]) hrun
    exact ⟨by simpa [LFU.stats, LFU.new] using h1,
      by simpa [LFU.stats, LFU.new] using h2,
      by simp [LFU.stats, akeys], h3, fun k => alookup_isSome_iff_mem k _⟩
  · intro cap ops s' hrun
    obtain ⟨h1, h2, h3⟩ := run_counts_of_step RR.step (fun s => s.key_value_map)
      (fun s => s.hits) (fun s => s.misses)
      (fun c op s r s1 h => rr_step_effects c op s r s1 h)
      ops (RR.new cap) s' (by simp [RR.new, akeys]) hrun
    exact ⟨by simpa [RR.stats, RR.new] using h1,
      by simpa [RR.stats, RR.new] using h2,
      by simp [RR.stats, akeys], h3, fun k => alookup_isSome_iff_mem k _⟩
  · intro ttl ci j cap ops s' hrun
    obtain ⟨h1, h2, h3⟩ := run_counts_of_step TTL.step (fun s => s.key_value_map)
      (fun s => s.hits) (fun s => s.misses)
      (fun c op s r s1 h => ttl_step_effects c op s r s1 h)
      ops (TTL.new ttl ci j cap) s' (by simp [TTL.new, akeys]) hrun
    exact ⟨by simpa [TTL.stats, TTL.new] using h1,
      by simpa [TTL.stats, TTL.new] using h2,
      by simp [TTL.stats, akeys], h3, fun k => alookup_isSome_iff_mem k _⟩

/-- Witness for C8: the theorem applied to each engine on the empty
operation sequence from a fresh cache of capacity 2. -/
theorem c8_stats_accurate_witness :
    (FIFO.stats (FIFO.new 2 : FIFO.State Nat Nat)).hits
      = countHits FIFO.step (FIFO.new 2 : FIFO.State Nat Nat) [] ∧
    (LIFO.stats (LIFO.new 2 : LIFO.State Nat Nat)).hits
      = countHits LIFO.step (LIFO.new 2 : LIFO.State Nat Nat) [] ∧
    (LRU.stats (LRU.new 2 : LRU.State Nat Nat)).hits
      = countHits LRU.step (LRU.new 2 : LRU.State Nat Nat) [] ∧
    (MRU.stats (MRU.new 2 : MRU.State Nat Nat)).hits
      = countHits MRU.step (MRU.new 2 : MRU.State Nat Nat) [] ∧
    (LFU.stats (LFU.new 2 : LFU.State Nat Nat)).hits
      = countHits LFU.step (LFU.new 2 : LFU.State Nat Nat) [] ∧
    (RR.stats (RR.new 2 : RR.State Nat Nat)).hits
      = countHits RR.step (RR.new 2 : RR.State Nat Nat) [] ∧
    (TTL.stats (TTL.new 5 1 1 2 : TTL.State Nat Nat)).hits
      = countHits TTL.step (TTL.new 5 1 1 2 : TTL.State Nat Nat) [] :=
  have h := c8_stats_accurate Nat Nat
  ⟨(h.1 2 [] (FIFO.new 2) rfl).1, (h.2.1 2 [] (LIFO.new 2) rfl).1,
    (h.2.2.1 2 [] (LRU.new 2) rfl).1, (h.2.2.2.1 2 [] (MRU.new 2) rfl).1,
    (h.2.2.2.2.1 2 [] (LFU.new 2) rfl).1, (h.2.2.2.2.2.1 2 [] (RR.new 2) rfl).1,
    (h.2.2.2.2.2.2 5 1 1 2 [] (TTL.new 5 1 1 2) rfl).1⟩

/-- Witness for C7: a TTL cache with `ttl = 5` holding key 1 set at
instant 10 (expiry 15); reading it at instant 20 misses and removes it,
reading it at instant 12 hits and re-arms the expiry to 17. -/
theorem c7_ttl_get_expiry_witness :
    ((TTL.get 1 20 ttlOne).1 = none ∧
      (TTL.get 1 20 ttlOne).2.misses = ttlOne.misses + 1 ∧
      (TTL.get 1 20 ttlOne).2.hits = ttlOne.hits ∧
      alookup 1 (TTL.get 1 20 ttlOne).2.key_value_map = none) ∧
    ((TTL.get 1 12 ttlOne).1 = some 42 ∧
      (TTL.get 1 12 ttlOne).2.hits = ttlOne.hits + 1 ∧
      (TTL.get 1 12 ttlOne).2.misses = ttlOne.misses ∧
      alookup 1 (TTL.get 1 12 ttlOne).2.key_value_map
        = some { data := 42, expiry := 17 }) :=
  ⟨(c7_ttl_get_expiry Nat Nat ttlOne 1 { data := 42, expiry := 15 } 20
      (by decide) (by decide)).1 (by decide),
    (c7_ttl_get_expiry Nat Nat ttlOne 1 { data := 42, expiry := 15 } 12
      (by decide) (by decide)).2 (by decide)⟩

end Arcache
